import Mathlib

/-!
# Verification of the Maximal-Assignment-C solvers

A shallow embedding of the three assignment-problem solvers of the
Maximal-Assignment-C repository (GreedyAlgorithm in greedy.c,
BacktrackAlgorithm in backtrack.c, HungarianAlgorithm in hungarian.c)
together with the matrix abstraction of matrix_core.c, and proofs about
them.

The C matrix is a linked structure: a `Matrix` holds `head` (a linked
list of row nodes, each row a linked list of `MatrixElement`s carrying a
`value` and a `column` field) plus `width` and `height` fields.  We model
it as a list of lists of cells, keeping the `column` field explicitly,
since the C code reads it (`element->column`).  C `int` values are
modelled as unbounded `Int` (no claim depends on overflow); the
`INT_MIN`/`INT_MAX` sentinels of the C code are modelled as the exact
32-bit constants.  Mutation is modelled by state passing, `calloc`ed
mark/cover arrays as total functions or `List Bool`, and the
possibly-divergent Hungarian fixpoint loop with explicit fuel
(`none` = the loop did not finish within the given number of
iterations).
-/

namespace MaxAssign

/-- `MatrixElement` of matrix_core.h: an integer value plus the stored
column index (the `nextCol` pointer is the list structure itself). -/
structure Cell where
  value : Int
  column : Int
deriving DecidableEq, Repr

/-- `Matrix` of matrix_core.h: the linked rows (`head`) plus the `width`
and `height` fields.  The fields are separate from the actual row list,
exactly as in the C struct. -/
structure Matrix where
  head : List (List Cell)
  width : Int
  height : Int
deriving DecidableEq, Repr

/-- The number of rows the C loops `for (i = 0; i < matrix->height; i++)`
iterate over (a non-positive `height` gives zero iterations). -/
def Matrix.H (M : Matrix) : Nat := M.height.toNat

/-- The number of columns the C loops `for (i = 0; i < matrix->width; i++)`
iterate over. -/
def Matrix.W (M : Matrix) : Nat := M.width.toNat

/-- Convenience builder for concrete matrices: rows of values, with the
`column` fields set to the cell's index, and the `width`/`height` fields
set from the data, as the loader of matrix_io.c produces. -/
def mkMatrix (vals : List (List Int)) : Matrix :=
  { head := vals.map (fun row => row.enum.map (fun p => ⟨p.2, (p.1 : Int)⟩)),
    width := ((vals.headD []).length : Int),
    height := (vals.length : Int) }

/-- `GetRowNode` followed by `GetElementCol`: walk to row `r`, then walk
to position `c` in that row; `none` models the NULL returned when the
list ends early. -/
def cellAt (M : Matrix) (r c : Nat) : Option Cell :=
  (M.head.get? r).bind (fun row => row.get? c)

/-- Dereferenced cell value at a position.  The C code dereferences the
result of `GetElementCol` without a NULL check at the places this is
used; the default `0` is never reached on the well-formed matrices the
theorems quantify over. -/
def valueAt (M : Matrix) (r c : Nat) : Int :=
  ((cellAt M r c).map Cell.value).getD 0

/-- Pointwise update of a total map, modelling a single array store. -/
def updf {α β : Type} [DecidableEq α] (f : α → β) (a : α) (b : β) : α → β :=
  fun x => if x = a then b else f x

/-- `SUCCESS` of error_codes.h. -/
def SUCCESS : Int := 0

/-- `MEMORY_ALLOCATION_FAILURE` of error_codes.h. -/
def MEMORY_ALLOCATION_FAILURE : Int := -1

/-- `INVALID_MATRIX_OR_INDICES` of error_codes.h. -/
def INVALID_MATRIX_OR_INDICES : Int := -4

/-- The C `INT_MIN` sentinel used by greedy.c. -/
def INT_MIN : Int := -(2 ^ 31)

/-- The C `INT_MAX` sentinel used by hungarian.c minimum searches. -/
def INT_MAX : Int := 2 ^ 31 - 1

/-- A matrix is well formed when its `width`/`height` fields are positive
and agree with the row structure and every element's stored `column`
field is its position, as the loader guarantees. -/
def WellFormed (M : Matrix) : Prop :=
  0 < M.width ∧ 0 < M.height ∧ M.head.length = M.H ∧
    ∀ row ∈ M.head, row.length = M.W ∧
      ∀ i : Nat, ∀ h : i < row.length, (row.get ⟨i, h⟩).column = (i : Int)

instance (M : Matrix) : Decidable (WellFormed M) := by
  unfold WellFormed; infer_instance

/-! ## Backtrack solver (backtrack.c) -/

/-- `SelectedElement` of backtrack.h. -/
structure SelectedElement where
  row : Int
  col : Int
  value : Int
deriving DecidableEq, Repr

/-- `CopySelectedValues`: scans `usedColumns[i]` for `i < height` (note:
the index set is the height, though `usedColumns` has one slot per
column) and for each nonzero mark records the element at row `i`, column
`usedColumns[i] - 1`. -/
def copySelectedValues (M : Matrix) (usedColumns : Nat → Int) : List SelectedElement :=
  (List.range M.H).foldl
    (fun acc i =>
      if usedColumns i = 0 then acc
      else acc ++ [⟨(i : Int), usedColumns i - 1, valueAt M i (usedColumns i - 1).toNat⟩])
    []

/-- The running best of `Explore`: the shared `*maxSum` together with the
`selectionValues` snapshot (whose length is `*selectionCount`). -/
structure Best where
  maxSum : Int
  selection : List SelectedElement
deriving DecidableEq, Repr

/-- `Explore` of backtrack.c.  At `currentRow == height` the completed
sum is compared against the best; otherwise each column is tried in
order, marking `usedRows[currentRow] = 1` and
`usedColumns[i] = currentRow + 1` for the recursive call (the undo after
the call is implicit: the updated maps are only passed down).  `fuel` is
the structural recursion handle; the top-level call passes `M.H`, which
the recursion never exhausts because each level increments `currentRow`. -/
def explore (M : Matrix) : Nat → Nat → Int → (Nat → Bool) → (Nat → Int) → Best → Best
  | fuel, currentRow, currentSum, usedRows, usedColumns, best =>
    if currentRow = M.H then
      if currentSum > best.maxSum then ⟨currentSum, copySelectedValues M usedColumns⟩
      else best
    else
      match fuel with
      | 0 => best
      | fuel' + 1 =>
        (List.range M.W).foldl
          (fun b i =>
            if usedRows currentRow = false ∧ usedColumns i = 0 then
              explore M fuel' (currentRow + 1) (currentSum + valueAt M currentRow i)
                (updf usedRows currentRow true) (updf usedColumns i ((currentRow : Int) + 1)) b
            else b)
          best

/-- The out-parameters of `BacktrackAlgorithm`. -/
structure BacktrackResult where
  maxSum : Int
  selectionCount : Nat
  selectionValues : List SelectedElement
deriving DecidableEq, Repr

/-- `BacktrackAlgorithm` of backtrack.c: validity check, zero-initialised
marks and outputs, then `Explore` from row 0.  `none` models a NULL
matrix pointer; allocation failures are not modelled. -/
def BacktrackAlgorithm (m? : Option Matrix) : Except Int BacktrackResult :=
  match m? with
  | none => .error INVALID_MATRIX_OR_INDICES
  | some M =>
    if M.width ≤ 0 ∨ M.height ≤ 0 then .error INVALID_MATRIX_OR_INDICES
    else
      let b := explore M M.H 0 0 (fun _ => false) (fun _ => 0) ⟨0, []⟩
      .ok ⟨b.maxSum, b.selection.length, b.selection⟩

/-! ## Specification-side notions for the assignment problem -/

/-- Sum of the cells picked by choosing column `ρ.get i` for row `r + i`. -/
def pathSum (M : Matrix) : Nat → List Nat → Int
  | _, [] => 0
  | r, c :: cs => valueAt M r c + pathSum M (r + 1) cs

/-- A complete assignment: one column per row (all `M.H` rows), columns
pairwise distinct and in range. -/
def ValidAssign (M : Matrix) (ρ : List Nat) : Prop :=
  ρ.length = M.H ∧ ρ.Nodup ∧ ∀ c ∈ ρ, c < M.W

instance (M : Matrix) (ρ : List Nat) : Decidable (ValidAssign M ρ) := by
  unfold ValidAssign; infer_instance

/-- The claim's notion of a valid selection: cells with pairwise-distinct
rows, pairwise-distinct columns, at most `min H W` of them, one cell per
row up to that bound. -/
def ClaimSelection (M : Matrix) (sel : List (Nat × Nat)) : Prop :=
  (sel.map Prod.fst).Nodup ∧ (sel.map Prod.snd).Nodup ∧
    sel.length ≤ min M.H M.W ∧ ∀ p ∈ sel, p.1 < M.H ∧ p.2 < M.W

instance (M : Matrix) (sel : List (Nat × Nat)) : Decidable (ClaimSelection M sel) := by
  unfold ClaimSelection; infer_instance

/-- Sum of the values of a selection of cells. -/
def claimSelSum (M : Matrix) (sel : List (Nat × Nat)) : Int :=
  (sel.map (fun p => valueAt M p.1 p.2)).sum

/-- The columns still free with respect to a backtrack `usedColumns` map,
consumed left to right while marking, mirroring the marks `Explore`
performs along one branch. -/
def freeExtension (M : Matrix) : (Nat → Int) → Nat → List Nat → Prop
  | _, _, [] => True
  | uC, r, c :: cs =>
    c < M.W ∧ uC c = 0 ∧ freeExtension M (updf uC c ((r : Int) + 1)) (r + 1) cs

/-! ## Greedy solver (greedy.c) -/

/-- The state threaded through `GreedyAlgorithm`'s row loop: the running
sum, the `maxSelection` value array, the used-row and used-column marks,
and (as a ghost trace for stating the selection invariants) the
`(rowIndex, column)` pairs that were marked used when a value was
appended. -/
structure GreedyState where
  maxSum : Int
  maxSelection : List Int
  chosen : List (Nat × Int)
  usedRows : Nat → Bool
  usedCols : Int → Bool

/-- The inner element loop of greedy.c: scan the row, tracking the
largest value among elements whose row and column are unused, starting
from the `INT_MIN` sentinel with a strict `>` comparison. -/
def greedyRowScan (usedRow : Bool) (usedCols : Int → Bool) (cells : List Cell) :
    Option Cell :=
  (cells.foldl
    (fun (acc : Int × Option Cell) cell =>
      if usedRow = false ∧ usedCols cell.column = false ∧ cell.value > acc.1 then
        (cell.value, some cell)
      else acc)
    (INT_MIN, none)).2

/-- The outer row loop of greedy.c, walking the linked rows with
`rowIndex`: if the scan found an element, append its value, add it to
the sum and mark its row and column used. -/
def greedyLoop : List (List Cell) → Nat → GreedyState → GreedyState
  | [], _, st => st
  | cells :: rest, rowIndex, st =>
    let st' :=
      match greedyRowScan (st.usedRows rowIndex) st.usedCols cells with
      | none => st
      | some cell =>
        { maxSum := st.maxSum + cell.value,
          maxSelection := st.maxSelection ++ [cell.value],
          chosen := st.chosen ++ [(rowIndex, cell.column)],
          usedRows := updf st.usedRows rowIndex true,
          usedCols := updf st.usedCols cell.column true }
    greedyLoop rest (rowIndex + 1) st'

/-- The out-parameters of `GreedyAlgorithm` (plus the ghost cell trace). -/
structure GreedyResult where
  maxSum : Int
  maxSelection : List Int
  currentSelectionSize : Nat
  chosen : List (Nat × Int)
deriving DecidableEq, Repr

/-- `GreedyAlgorithm` of greedy.c.  Note the validity check tests only
`matrix == NULL || matrix->width <= 0`; the height is not checked. -/
def GreedyAlgorithm (m? : Option Matrix) : Except Int GreedyResult :=
  match m? with
  | none => .error INVALID_MATRIX_OR_INDICES
  | some M =>
    if M.width ≤ 0 then .error INVALID_MATRIX_OR_INDICES
    else
      let st := greedyLoop M.head 0 ⟨0, [], [], fun _ => false, fun _ => false⟩
      .ok ⟨st.maxSum, st.maxSelection, st.maxSelection.length, st.chosen⟩

/-! ## Hungarian solver (hungarian.c) -/

/-- `CopyMatrix`: a fresh matrix with the same dimensions whose rows are
rebuilt element by element, copying `value` and `column`. -/
def copyMatrix (M : Matrix) : Matrix :=
  { width := M.width, height := M.height,
    head := M.head.map (fun row => row.map (fun e => ⟨e.value, e.column⟩)) }

/-- `NegateAllElements`: flip the sign of every element. -/
def negateAll (M : Matrix) : Matrix :=
  { M with head := M.head.map (fun row => row.map (fun e => { e with value := -e.value })) }

/-- The global minimum scan of `MakeMatrixNonnegative`, starting from
`INT_MAX`. -/
def matrixMin (M : Matrix) : Int :=
  M.head.foldl
    (fun acc row => row.foldl (fun a e => if e.value < a then e.value else a) acc)
    INT_MAX

/-- `MakeMatrixNonnegative`: subtract the global minimum from every
element, but only when that minimum is negative. -/
def makeNonneg (M : Matrix) : Matrix :=
  let minValue := matrixMin M
  if minValue < 0 then
    { M with head := M.head.map (fun row => row.map (fun e => { e with value := e.value - minValue })) }
  else M

/-- `SubtractRowMinima`: per row, subtract the row minimum (scanned from
`INT_MAX`) from every element of the row. -/
def subtractRowMinima (M : Matrix) : Matrix :=
  { M with head := M.head.map (fun row =>
      let mn := row.foldl (fun a e => if e.value < a then e.value else a) INT_MAX
      row.map (fun e => { e with value := e.value - mn })) }

/-- Replace the element at a position of a row, when present. -/
def modifyAt (f : Cell → Cell) : Nat → List Cell → List Cell
  | _, [] => []
  | 0, x :: xs => f x :: xs
  | n + 1, x :: xs => x :: modifyAt f n xs

/-- One column pass of `SubtractColumnMinima`: find the minimum over the
elements present at position `col` of each row (skipping rows that are
too short, as the NULL check does), then subtract it from each present
element. -/
def subtractColMin (col : Nat) (M : Matrix) : Matrix :=
  let mn := M.head.foldl
    (fun a row =>
      match row.get? col with
      | some e => if e.value < a then e.value else a
      | none => a)
    INT_MAX
  { M with head := M.head.map (modifyAt (fun e => { e with value := e.value - mn }) col) }

/-- `SubtractColumnMinima`: the column passes for `col = 0 .. width-1`. -/
def subtractColumnMinima (M : Matrix) : Matrix :=
  (List.range M.W).foldl (fun acc col => subtractColMin col acc) M

/-- The per-row part of `IsOptimalSolution`'s greedy covering: scan the
elements of the row in order; an uncovered zero covers its row (index
`rowIdx`, as computed by `GetRowIndex`) and its column (the element's
stored `column` field). -/
def optCoverRow (rowIdx : Nat) (cells : List Cell) (cv : List Bool × List Bool) :
    List Bool × List Bool :=
  cells.foldl
    (fun cv e =>
      if e.value = 0 ∧ cv.1.getD rowIdx false = false ∧ cv.2.getD e.column.toNat false = false then
        (cv.1.set rowIdx true, cv.2.set e.column.toNat true)
      else cv)
    cv

/-- The covering arrays `IsOptimalSolution` builds over all rows. -/
def optCovers (M : Matrix) : List Bool × List Bool :=
  (M.head.foldl
    (fun (st : (List Bool × List Bool) × Nat) cells => (optCoverRow st.2 cells st.1, st.2 + 1))
    ((List.replicate M.H false, List.replicate M.W false), 0)).1

/-- `IsOptimalSolution`: the greedy covering counts equal the number of
rows or the number of columns (the `height`/`width` fields, compared as
C ints). -/
def isOptimalSolution (M : Matrix) : Bool :=
  let cv := optCovers M
  let numCoveredRows := (List.range M.H).countP (fun i => cv.1.getD i false)
  let numCoveredCols := (List.range M.W).countP (fun j => cv.2.getD j false)
  ((numCoveredRows : Int) = M.height ∨ (numCoveredCols : Int) = M.width : Prop)

/-- `CoverZeros`: for every uncovered zero (with respect to the running
cover state), cover its column if the column holds another zero, else
its row if the row holds another zero, else nothing. -/
def coverZeros (M : Matrix) (covR covC : List Bool) : List Bool × List Bool :=
  (List.range M.H).foldl
    (fun cv row =>
      (List.range M.W).foldl
        (fun (cv : List Bool × List Bool) col =>
          if cv.1.getD row false = false ∧ cv.2.getD col false = false ∧
              valueAt M row col = 0 then
            let multipleZerosInColumn :=
              (List.range M.H).any (fun r => decide (r ≠ row) && decide (valueAt M r col = 0))
            let multipleZerosInRow :=
              (List.range M.W).any (fun c => decide (c ≠ col) && decide (valueAt M row c = 0))
            if multipleZerosInColumn then (cv.1, cv.2.set col true)
            else if multipleZerosInRow then (cv.1.set row true, cv.2)
            else cv
          else cv)
        cv)
    (covR, covC)

/-- `CreateAdditionalZeros`: find the minimum among uncovered present
elements (from `INT_MAX`); subtract it from every uncovered present
element and add it to every doubly covered present element. -/
def createAdditionalZeros (M : Matrix) (covR covC : List Bool) : Matrix :=
  let minUncovered :=
    (List.range M.H).foldl
      (fun a row =>
        (List.range M.W).foldl
          (fun a col =>
            if covR.getD row false = false ∧ covC.getD col false = false then
              match cellAt M row col with
              | some e => if e.value < a then e.value else a
              | none => a
            else a)
          a)
      INT_MAX
  let sub := { M with head := M.head.enum.map (fun (rp : Nat × List Cell) =>
      rp.2.enum.map (fun (cp : Nat × Cell) =>
        if rp.1 < M.H ∧ cp.1 < M.W ∧ covR.getD rp.1 false = false ∧
            covC.getD cp.1 false = false then
          { cp.2 with value := cp.2.value - minUncovered }
        else cp.2)) }
  { sub with head := sub.head.enum.map (fun (rp : Nat × List Cell) =>
      rp.2.enum.map (fun (cp : Nat × Cell) =>
        if rp.1 < M.H ∧ cp.1 < M.W ∧ covR.getD rp.1 false = true ∧
            covC.getD cp.1 false = true then
          { cp.2 with value := cp.2.value + minUncovered }
        else cp.2)) }

/-- The state of the Hungarian fixpoint loop: the working copy and the
persistent cover arrays allocated before the loop. -/
structure HState where
  work : Matrix
  covR : List Bool
  covC : List Bool
deriving DecidableEq, Repr

/-- One iteration of the fixpoint loop body: `CoverZeros` updates the
persistent cover arrays, then `CreateAdditionalZeros` updates the
working copy. -/
def hungarianStep (st : HState) : HState :=
  let cv := coverZeros st.work st.covR st.covC
  ⟨createAdditionalZeros st.work cv.1 cv.2, cv.1, cv.2⟩

/-- The `while (!IsOptimalSolution(matrixCopy))` loop, with fuel:
`none` means the loop did not reach an optimal state within `fuel`
iterations (the C loop has no bound and simply keeps running). -/
def hungarianLoop : Nat → HState → Option HState
  | 0, _ => none
  | n + 1, st =>
    if isOptimalSolution st.work then some st
    else hungarianLoop n (hungarianStep st)

/-- The column scan of `ExtractFinalSolution` for one row: the first
column whose final-matrix value is zero and whose column is unclaimed
(the `break` exits after the first hit). -/
def findZeroCol (finalM : Matrix) (row : Nat) (claimed : List Bool) : List Nat → Option Nat
  | [] => none
  | c :: cs =>
    if valueAt finalM row c = 0 ∧ claimed.getD c false = false then some c
    else findZeroCol finalM row claimed cs

/-- The state of `ExtractFinalSolution`'s row loop. -/
structure ExtractState where
  sum : Int
  chosenElements : List Int
  pairs : List (Nat × Nat)
  claimed : List Bool
deriving DecidableEq, Repr

/-- The result of `ExtractFinalSolution`: its return code, the
`chosenElements` array (of length `assignments`), the ghost `(row, col)`
trace of the assigned cells, and `*result`. -/
structure ExtractResult where
  code : Int
  chosenElements : List Int
  pairs : List (Nat × Nat)
  result : Int
deriving DecidableEq, Repr

/-- `ExtractFinalSolution`: scan rows in order; for each row take the
first zero of the final matrix in an unclaimed column, record the
original matrix's value there and claim the column.  The function has no
failure path besides allocation: it always returns `SUCCESS`, with
however many assignments the scan found. -/
def extractFinalSolution (origM finalM : Matrix) : ExtractResult :=
  let numRows := origM.H
  let numCols := origM.W
  let st :=
    (List.range numRows).foldl
      (fun (st : ExtractState) row =>
        match findZeroCol finalM row st.claimed (List.range numCols) with
        | some c =>
          ⟨st.sum + valueAt origM row c, st.chosenElements ++ [valueAt origM row c],
            st.pairs ++ [(row, c)], st.claimed.set c true⟩
        | none => st)
      ⟨0, [], [], List.replicate numCols false⟩
  ⟨SUCCESS, st.chosenElements, st.pairs, st.sum⟩

/-- The observables of a `HungarianAlgorithm` call: the caller's matrix
as it stands after the call (threaded through the embedding: every
mutating pass receives the private copy, never this matrix), the return
code, and the out-parameters. -/
structure HungarianOutcome where
  callerMatrix : Matrix
  code : Int
  chosenElements : List Int
  pairs : List (Nat × Nat)
  result : Int
deriving DecidableEq, Repr

/-- `HungarianAlgorithm` of hungarian.c: deep copy, negate, normalise,
row and column reduction on the copy, then the unbounded cover loop
(modelled with fuel), then extraction reading values from the caller's
matrix.  There is no validity check on the input. -/
def HungarianAlgorithm (matrix : Matrix) (fuel : Nat) : Option HungarianOutcome :=
  let matrixCopy := copyMatrix matrix
  let reduced := subtractColumnMinima (subtractRowMinima (makeNonneg (negateAll matrixCopy)))
  match hungarianLoop fuel
      ⟨reduced, List.replicate matrixCopy.H false, List.replicate matrixCopy.W false⟩ with
  | none => none
  | some st =>
    let ex := extractFinalSolution matrix st.work
    some ⟨matrix, ex.code, ex.chosenElements, ex.pairs, ex.result⟩

/-! ## Generic fold lemmas -/

/-- An invariant preserved by every step of a fold holds of the result. -/
theorem foldl_inv {α β : Type} (P : β → Prop) (f : β → α → β) :
    ∀ (l : List α) (b : β), P b → (∀ b' x, x ∈ l → P b' → P (f b' x)) → P (l.foldl f b) := by
  intro l
  induction l with
  | nil => intro b hb _; exact hb
  | cons x l ih =>
    intro b hb hstep
    exact ih (f b x) (hstep b x (List.mem_cons_self x l) hb)
      (fun b' y hy => hstep b' y (List.mem_cons_of_mem x hy))

/-- A measure that no step decreases is not decreased by the fold. -/
theorem foldl_measure_mono {α β : Type} (m : β → Int) (f : β → α → β)
    (h : ∀ b x, m b ≤ m (f b x)) : ∀ (l : List α) (b : β), m b ≤ m (l.foldl f b) := by
  intro l
  induction l with
  | nil => intro b; exact le_refl _
  | cons x l ih => intro b; exact le_trans (h b x) (ih (f b x))

/-- If some element of the list pushes the measure to at least `T` from
any accumulator, and no step decreases the measure, the fold result is
at least `T`. -/
theorem foldl_measure_reach {α β : Type} (m : β → Int) (f : β → α → β) (T : Int)
    (hmono : ∀ b x, m b ≤ m (f b x)) (x : α) (hx : ∀ b, T ≤ m (f b x)) :
    ∀ (l : List α) (b : β), x ∈ l → T ≤ m (l.foldl f b) := by
  intro l
  induction l with
  | nil => intro b hmem; exact absurd hmem (List.not_mem_nil x)
  | cons y l ih =>
    intro b hmem
    rcases List.mem_cons.mp hmem with h | h
    · subst h
      exact le_trans (hx b) (foldl_measure_mono m f hmono l (f b x))
    · exact ih (f b y) h

/-- If some element of the list establishes `Q` from any accumulator and
every step preserves `Q`, the fold result satisfies `Q`. -/
theorem foldl_pred_reach {α β : Type} (Q : β → Prop) (f : β → α → β)
    (x : α) (hx : ∀ b, Q (f b x)) (hkeep : ∀ b y, Q b → Q (f b y)) :
    ∀ (l : List α) (b : β), x ∈ l → Q (l.foldl f b) := by
  intro l
  induction l with
  | nil => intro b hmem; exact absurd hmem (List.not_mem_nil x)
  | cons y l ih =>
    intro b hmem
    rcases List.mem_cons.mp hmem with h | h
    · subst h
      rw [List.foldl_cons]
      exact foldl_inv Q f l (f b x) (hx b) (fun b' z _ => hkeep b' z)
    · exact ih (f b y) h

/-- A conditional-append fold builds the map of the filtered list. -/
theorem foldl_append_if {α β : Type} (q : α → Prop) [DecidablePred q] (g : α → β) :
    ∀ (l : List α) (acc : List β),
      l.foldl (fun acc i => if q i then acc else acc ++ [g i]) acc =
        acc ++ (l.filter (fun i => decide ¬q i)).map g := by
  intro l
  induction l with
  | nil => intro acc; simp
  | cons x l ih =>
    intro acc
    by_cases h : q x <;> simp [List.filter_cons, h, ih, List.append_assoc]

/-! ## Divergence of the Hungarian fixpoint loop (claim C7) -/

/-- A loop state that is not optimal and that `hungarianStep` maps to
itself is never left: the C `while` loop spins forever on it. -/
theorem hungarianLoop_fixpoint (st : HState) (hopt : isOptimalSolution st.work = false)
    (hfix : hungarianStep st = st) : ∀ n, hungarianLoop n st = none := by
  intro n
  induction n with
  | zero => rfl
  | succ n ih =>
    show (if isOptimalSolution st.work then some st else hungarianLoop n (hungarianStep st)) = none
    rw [hopt, hfix]
    simpa using ih

/-- If the fixpoint loop never reports an optimal state within the given
fuel, the whole solver call is still running. -/
theorem hungarianAlgorithm_loop_none {M : Matrix} {fuel : Nat}
    (h : hungarianLoop fuel
        ⟨subtractColumnMinima (subtractRowMinima (makeNonneg (negateAll (copyMatrix M)))),
          List.replicate (copyMatrix M).H false, List.replicate (copyMatrix M).W false⟩ = none) :
    HungarianAlgorithm M fuel = none := by
  unfold HungarianAlgorithm
  simp only [h]

/-- The matrix whose reduced form traps the cover heuristic: its reduced
zero pattern has zeros at (0,0), (0,1), (1,0), (2,2); after one
iteration row 0 and column 0 are covered, the only uncovered zero (2,2)
is alone in its row and column so `CoverZeros` adds nothing, the minimum
uncovered value is 0 so `CreateAdditionalZeros` changes nothing, and the
state repeats forever. -/
def c7Matrix : Matrix := mkMatrix [[5, 5, 4], [5, 4, 4], [4, 4, 5]]

/-- The loop state `HungarianAlgorithm` enters its fixpoint loop with on
`c7Matrix`. -/
def c7Start : HState :=
  ⟨subtractColumnMinima (subtractRowMinima (makeNonneg (negateAll (copyMatrix c7Matrix)))),
    List.replicate (copyMatrix c7Matrix).H false, List.replicate (copyMatrix c7Matrix).W false⟩

/-- Claim C7: the spec demands that the fixpoint loop terminate within
min(H,W) iterations or fail fast with NonConvergence.  The code has no
iteration bound and no NonConvergence path, and on the concrete matrix
[[5,5,4],[5,4,4],[4,4,5]] the loop never terminates: for every amount of
fuel the embedded solver is still running. -/
theorem hungarian_diverges_on_c7Matrix :
    ∀ fuel : Nat, HungarianAlgorithm c7Matrix fuel = none := by
  intro fuel
  cases fuel with
  | zero => rfl
  | succ n =>
    have h1 : hungarianLoop (n + 1) c7Start = hungarianLoop n (hungarianStep c7Start) := by
      show (if isOptimalSolution c7Start.work then some c7Start
            else hungarianLoop n (hungarianStep c7Start)) = _
      rw [show isOptimalSolution c7Start.work = false from by decide]
      simp
    have h2 : hungarianLoop n (hungarianStep c7Start) = none :=
      hungarianLoop_fixpoint (hungarianStep c7Start) (by decide) (by decide) n
    exact hungarianAlgorithm_loop_none (h1.trans h2)

/-! ## The two exact solvers disagree (claim C2) -/

/-- Claim C2: the spec says `hungarianSum == backtrackSum` on every
non-degenerate matrix.  On the 1-wide, 2-high matrix [[5],[7]] (positive
dimensions, non-null) the Hungarian solver returns sum 5 while the
Backtrack solver returns sum 0 (the true optimum is 7): the two exact
methods do not agree. -/
theorem hungarian_backtrack_disagree :
    (HungarianAlgorithm (mkMatrix [[5], [7]]) 1).map HungarianOutcome.result = some 5 ∧
      BacktrackAlgorithm (some (mkMatrix [[5], [7]])) = .ok ⟨0, 0, []⟩ ∧ (5 : Int) ≠ 0 := by
  refine ⟨by decide, by rfl, by decide⟩

/-! ## Validity checks (claim C6) -/

/-- Claim C6 counterexample: the claim says each solver returns
InvalidMatrix exactly when the matrix is null or has non-positive width
or height.  But `GreedyAlgorithm` accepts a matrix with `height = 0`
(it only checks the width), and `HungarianAlgorithm` performs no
validity check at all: on a 0-wide, 0-high matrix it runs to completion
and returns `SUCCESS`. -/
theorem validity_check_gaps :
    GreedyAlgorithm (some ⟨[], 1, 0⟩) = .ok ⟨0, [], 0, []⟩ ∧
      (HungarianAlgorithm ⟨[], 0, 0⟩ 1).map HungarianOutcome.code = some SUCCESS ∧
      SUCCESS ≠ INVALID_MATRIX_OR_INDICES := by
  refine ⟨by rfl, by decide, by decide⟩

/-- Claim C6 (amended): `BacktrackAlgorithm` returns InvalidMatrix
exactly on a null matrix or non-positive width or height;
`GreedyAlgorithm` returns it exactly on a null matrix or non-positive
width (the height is not checked); `HungarianAlgorithm` has no validity
check and never returns InvalidMatrix (every terminating run returns
`SUCCESS`). -/
theorem validity_check_characterization :
    BacktrackAlgorithm none = .error INVALID_MATRIX_OR_INDICES ∧
      GreedyAlgorithm none = .error INVALID_MATRIX_OR_INDICES ∧
      (∀ M : Matrix,
        BacktrackAlgorithm (some M) = .error INVALID_MATRIX_OR_INDICES ↔
          M.width ≤ 0 ∨ M.height ≤ 0) ∧
      (∀ M : Matrix,
        GreedyAlgorithm (some M) = .error INVALID_MATRIX_OR_INDICES ↔ M.width ≤ 0) ∧
      ∀ (M : Matrix) (fuel : Nat),
        ((HungarianAlgorithm M fuel).map HungarianOutcome.code).getD SUCCESS = SUCCESS := by
  refine ⟨rfl, rfl, ?_, ?_, ?_⟩
  · intro M
    by_cases h : M.width ≤ 0 ∨ M.height ≤ 0 <;> simp [BacktrackAlgorithm, h]
  · intro M
    by_cases h : M.width ≤ 0 <;> simp [GreedyAlgorithm, h]
  · intro M fuel
    unfold HungarianAlgorithm
    cases h : hungarianLoop fuel
        ⟨subtractColumnMinima (subtractRowMinima (makeNonneg (negateAll (copyMatrix M)))),
          List.replicate (copyMatrix M).H false, List.replicate (copyMatrix M).W false⟩ with
    | none => simp [h]
    | some st => simp [h, extractFinalSolution, SUCCESS]

/-! ## The caller's matrix is never mutated (claim C9) -/

/-- The element-by-element copy rebuilds each row identically. -/
theorem copyRow_eq (row : List Cell) :
    row.map (fun e => (⟨e.value, e.column⟩ : Cell)) = row := by
  induction row with
  | nil => rfl
  | cons e rest ih => simp [ih]

/-- The element-by-element deep copy of `CopyMatrix` rebuilds a matrix
equal (as a value) to the original: same dimensions, same cells. -/
theorem copyMatrix_eq_self (M : Matrix) : copyMatrix M = M := by
  show Matrix.mk (M.head.map fun row => row.map fun e => (⟨e.value, e.column⟩ : Cell))
      M.width M.height = M
  have : (M.head.map fun row => row.map fun e => (⟨e.value, e.column⟩ : Cell)) = M.head := by
    induction M.head with
    | nil => rfl
    | cons row rest ih => simp [copyRow_eq, ih]
  rw [this]

/-- Claim C9: `CopyMatrix` produces a clone with identical dimensions and
cell values, and `HungarianAlgorithm` applies every mutating pass to
that private clone only, so the caller's matrix observable after the
call is the matrix that was passed in. -/
theorem hungarian_frame_property :
    ∀ (M : Matrix) (fuel : Nat),
      copyMatrix M = M ∧
        ((HungarianAlgorithm M fuel).map HungarianOutcome.callerMatrix).getD M = M := by
  intro M fuel
  refine ⟨copyMatrix_eq_self M, ?_⟩
  unfold HungarianAlgorithm
  cases h : hungarianLoop fuel
      ⟨subtractColumnMinima (subtractRowMinima (makeNonneg (negateAll (copyMatrix M)))),
        List.replicate (copyMatrix M).H false, List.replicate (copyMatrix M).W false⟩ with
  | none => simp [h]
  | some st => simp [h]

/-! ## The INT_MIN sentinel of greedy.c (claim C10) -/

/-- Any element the inner scan of greedy.c returns has value strictly
above `INT_MIN`: the scan starts from the `INT_MIN` sentinel and only
moves on a strict `>`. -/
theorem greedyRowScan_some_gt {usedRow : Bool} {usedCols : Int → Bool} {cells : List Cell}
    {cell : Cell} (h : greedyRowScan usedRow usedCols cells = some cell) :
    INT_MIN < cell.value := by
  have key := foldl_inv
    (fun (acc : Int × Option Cell) =>
      INT_MIN ≤ acc.1 ∧ ∀ c, acc.2 = some c → INT_MIN < c.value ∧ acc.1 = c.value)
    (fun (acc : Int × Option Cell) cell =>
      if usedRow = false ∧ usedCols cell.column = false ∧ cell.value > acc.1 then
        (cell.value, some cell)
      else acc)
    cells (INT_MIN, none)
    ⟨le_refl _, fun c hc => by cases hc⟩
    (by
      intro b x _ hb
      by_cases hcond : usedRow = false ∧ usedCols x.column = false ∧ x.value > b.1
      · simp only [hcond, if_pos]
        exact ⟨le_of_lt (lt_of_le_of_lt hb.1 hcond.2.2), fun c hc => by
          cases hc
          exact ⟨lt_of_le_of_lt hb.1 hcond.2.2, rfl⟩⟩
      · simpa [hcond] using hb)
  exact (key.2 cell h).1

/-- The inner scan of greedy.c selects nothing from a row all of whose
free-column elements hold exactly `INT_MIN`, because `INT_MIN` is never
strictly greater than the sentinel. -/
theorem greedyRowScan_all_int_min {usedCols : Int → Bool} {cells : List Cell}
    (h : ∀ cell ∈ cells, usedCols cell.column = false → cell.value = INT_MIN) :
    greedyRowScan false usedCols cells = none := by
  have key := foldl_inv
    (fun (acc : Int × Option Cell) => acc = (INT_MIN, none))
    (fun (acc : Int × Option Cell) cell =>
      if (false : Bool) = false ∧ usedCols cell.column = false ∧ cell.value > acc.1 then
        (cell.value, some cell)
      else acc)
    cells (INT_MIN, none) rfl
    (by
      intro b x hx hb
      subst hb
      by_cases hused : usedCols x.column = false
      · have : x.value = INT_MIN := h x hx hused
        simp [this]
      · simp [hused])
  unfold greedyRowScan
  rw [key]

/-- The values appended by the greedy row loop all come from the scan,
so they all exceed `INT_MIN`. -/
theorem greedyLoop_maxSelection_gt (rows : List (List Cell)) :
    ∀ (n : Nat) (st : GreedyState),
      (∀ v ∈ st.maxSelection, INT_MIN < v) →
      ∀ v ∈ (greedyLoop rows n st).maxSelection, INT_MIN < v := by
  induction rows with
  | nil => intro n st hst; simpa [greedyLoop] using hst
  | cons cells rest ih =>
    intro n st hst
    simp only [greedyLoop]
    cases h : greedyRowScan (st.usedRows n) st.usedCols cells with
    | none => exact ih (n + 1) st hst
    | some cell =>
      refine ih (n + 1) _ ?_
      intro v hv
      rcases List.mem_append.mp hv with h1 | h1
      · exact hst v h1
      · rw [List.mem_singleton.mp h1]
        exact greedyRowScan_some_gt h

/-- Claim C10: greedy.c never selects a cell holding `INT_MIN`: every
value in the returned selection is strictly greater than `INT_MIN`, and
a row whose free-column elements all hold `INT_MIN` contributes no
element even though free columns exist. -/
theorem greedy_never_selects_int_min :
    (∀ (M : Matrix) (res : GreedyResult), GreedyAlgorithm (some M) = .ok res →
        ∀ v ∈ res.maxSelection, INT_MIN < v) ∧
      ∀ (usedCols : Int → Bool) (cells : List Cell),
        (∀ cell ∈ cells, usedCols cell.column = false → cell.value = INT_MIN) →
        greedyRowScan false usedCols cells = none := by
  constructor
  · intro M res hres
    by_cases h : M.width ≤ 0
    · simp [GreedyAlgorithm, h] at hres
    · simp only [GreedyAlgorithm, h, if_neg, if_false] at hres
      cases hres
      exact greedyLoop_maxSelection_gt M.head 0 _ (by simp)
  · exact fun usedCols cells h => greedyRowScan_all_int_min h

/-- Witness for claim C10 at concrete inputs: the greedy run on
[[1,2],[3,4]] selects 2 and 3, both above `INT_MIN`, and a row holding
only `INT_MIN` in free columns yields no selection. -/
theorem greedy_never_selects_int_min_witness :
    INT_MIN < (2 : Int) ∧
      greedyRowScan false (fun _ => false) [⟨INT_MIN, 0⟩, ⟨INT_MIN, 1⟩] = none :=
  ⟨greedy_never_selects_int_min.1 (mkMatrix [[1, 2], [3, 4]])
      ⟨5, [2, 3], 2, [(0, 1), (1, 0)]⟩ (by rfl) 2 (by decide),
    greedy_never_selects_int_min.2 (fun _ => false) [⟨INT_MIN, 0⟩, ⟨INT_MIN, 1⟩]
      (by intro cell hc _; rcases List.mem_cons.mp hc with h | h
          · rw [h]
          · rw [List.mem_singleton.mp h])⟩

/-! ## The backtrack search computes max(0, best complete assignment)
(claim C1) -/

/-- Unfolding of `explore` at a leaf (`currentRow == height`). -/
theorem explore_leaf (M : Matrix) (fuel : Nat) (s : Int) (uR : Nat → Bool)
    (uC : Nat → Int) (best : Best) :
    explore M fuel M.H s uR uC best =
      if s > best.maxSum then ⟨s, copySelectedValues M uC⟩ else best := by
  cases fuel <;> simp [explore]

/-- The running best sum never decreases through `Explore`. -/
theorem explore_mono (M : Matrix) :
    ∀ (fuel r : Nat) (s : Int) (uR : Nat → Bool) (uC : Nat → Int) (best : Best),
      best.maxSum ≤ (explore M fuel r s uR uC best).maxSum := by
  intro fuel
  induction fuel with
  | zero =>
    intro r s uR uC best
    by_cases hr : r = M.H
    · subst hr
      rw [explore_leaf]
      by_cases hgt : s > best.maxSum <;> simp [hgt]
      exact le_of_lt hgt
    · simp [explore, hr]
  | succ fuel ih =>
    intro r s uR uC best
    by_cases hr : r = M.H
    · subst hr
      rw [explore_leaf]
      by_cases hgt : s > best.maxSum <;> simp [hgt]
      exact le_of_lt hgt
    · simp only [explore, hr, if_false]
      exact foldl_measure_mono Best.maxSum
        (fun b i =>
          if uR r = false ∧ uC i = 0 then
            explore M fuel (r + 1) (s + valueAt M r i)
              (updf uR r true) (updf uC i ((r : Int) + 1)) b
          else b)
        (fun b i => by
          by_cases hc : uR r = false ∧ uC i = 0
          · simp only [hc, if_pos, and_self]
            exact ih (r + 1) (s + valueAt M r i) (updf uR r true)
              (updf uC i ((r : Int) + 1)) b
          · simp [hc])
        (List.range M.W) best

/-- Any branch along still-free columns bounds the search result from
below: the sum it completes to is compared at the leaf. -/
theorem explore_ge_pathSum (M : Matrix) :
    ∀ (ρ : List Nat) (fuel r : Nat) (s : Int) (uR : Nat → Bool) (uC : Nat → Int)
      (best : Best),
      freeExtension M uC r ρ → r + ρ.length = M.H → ρ.length ≤ fuel →
      (∀ j, r ≤ j → uR j = false) →
      s + pathSum M r ρ ≤ (explore M fuel r s uR uC best).maxSum := by
  intro ρ
  induction ρ with
  | nil =>
    intro fuel r s uR uC best _ hlen _ _
    have hr : r = M.H := by simpa using hlen
    subst hr
    rw [explore_leaf]
    by_cases hgt : s > best.maxSum <;> simp [hgt, pathSum]
    exact le_of_not_lt hgt
  | cons c cs ih =>
    intro fuel r s uR uC best hfree hlen hfuel huR
    obtain ⟨hcW, hc0, hfree'⟩ := hfree
    have hr : r ≠ M.H := by
      intro h
      rw [h, List.length_cons] at hlen
      omega
    cases fuel with
    | zero => simp at hfuel
    | succ fuel' =>
      simp only [explore, hr, if_false]
      rw [show s + pathSum M r (c :: cs) =
          (s + valueAt M r c) + pathSum M (r + 1) cs by rw [pathSum]; ring]
      apply foldl_measure_reach Best.maxSum
        (fun b i =>
          if uR r = false ∧ uC i = 0 then
            explore M fuel' (r + 1) (s + valueAt M r i)
              (updf uR r true) (updf uC i ((r : Int) + 1)) b
          else b)
        ((s + valueAt M r c) + pathSum M (r + 1) cs)
        (fun b i => by
          by_cases hc : uR r = false ∧ uC i = 0
          · simp only [hc, if_pos, and_self]
            exact explore_mono M fuel' (r + 1) (s + valueAt M r i)
              (updf uR r true) (updf uC i ((r : Int) + 1)) b
          · simp [hc])
        c
        (fun b => by
          have hcond : uR r = false ∧ uC c = 0 := ⟨huR r (le_refl r), hc0⟩
          simp only [hcond, if_pos, and_self]
          apply ih fuel' (r + 1) (s + valueAt M r c) (updf uR r true)
            (updf uC c ((r : Int) + 1)) b hfree'
          · simp at hlen ⊢
            omega
          · simp at hfuel
            omega
          · intro j hj
            have : j ≠ r := by omega
            simp [updf, this]
            exact huR j (by omega))
        (List.range M.W) best (List.mem_range.mpr hcW)

/-- The search result is either the initial best or the sum along some
branch of still-free columns reaching the last row. -/
theorem explore_achieves (M : Matrix) :
    ∀ (fuel r : Nat) (s : Int) (uR : Nat → Bool) (uC : Nat → Int) (best : Best),
      (explore M fuel r s uR uC best).maxSum = best.maxSum ∨
        ∃ ρ, freeExtension M uC r ρ ∧ r + ρ.length = M.H ∧
          (explore M fuel r s uR uC best).maxSum = s + pathSum M r ρ := by
  intro fuel
  induction fuel with
  | zero =>
    intro r s uR uC best
    by_cases hr : r = M.H
    · subst hr
      rw [explore_leaf]
      by_cases hgt : s > best.maxSum
      · right
        exact ⟨[], trivial, by simp, by simp [hgt, pathSum]⟩
      · left
        simp [hgt]
    · left
      simp [explore, hr]
  | succ fuel ih =>
    intro r s uR uC best
    by_cases hr : r = M.H
    · subst hr
      rw [explore_leaf]
      by_cases hgt : s > best.maxSum
      · right
        exact ⟨[], trivial, by simp, by simp [hgt, pathSum]⟩
      · left
        simp [hgt]
    · have key := foldl_inv
        (fun (b : Best) => b.maxSum = best.maxSum ∨
          ∃ ρ, freeExtension M uC r ρ ∧ r + ρ.length = M.H ∧
            b.maxSum = s + pathSum M r ρ)
        (fun b i =>
          if uR r = false ∧ uC i = 0 then
            explore M fuel (r + 1) (s + valueAt M r i)
              (updf uR r true) (updf uC i ((r : Int) + 1)) b
          else b)
        (List.range M.W) best (Or.inl rfl)
        (by
          intro b i hi hb
          by_cases hc : uR r = false ∧ uC i = 0
          · simp only [hc, if_pos, and_self]
            rcases ih (r + 1) (s + valueAt M r i) (updf uR r true)
                (updf uC i ((r : Int) + 1)) b with h | ⟨ρ, h1, h2, h3⟩
            · rw [h]
              exact hb
            · right
              refine ⟨i :: ρ, ⟨List.mem_range.mp hi, hc.2, h1⟩, ?_, ?_⟩
              · simp at h2 ⊢
                omega
              · rw [h3, pathSum]
                ring
          · simpa [hc] using hb)
      simpa [explore, hr] using key

/-- A list of columns is a free extension exactly when it has no
duplicates and every column is in range and unmarked. -/
theorem freeExtension_iff (M : Matrix) :
    ∀ (ρ : List Nat) (uC : Nat → Int) (r : Nat),
      freeExtension M uC r ρ ↔ ρ.Nodup ∧ ∀ c ∈ ρ, c < M.W ∧ uC c = 0 := by
  intro ρ
  induction ρ with
  | nil => simp [freeExtension]
  | cons c cs ih =>
    intro uC r
    constructor
    · rintro ⟨hcW, hc0, hrec⟩
      obtain ⟨hnd, hall⟩ := (ih (updf uC c ((r : Int) + 1)) (r + 1)).mp hrec
      have hne : ∀ c' ∈ cs, c' ≠ c := by
        intro c' hc' heq
        have := (hall c' hc').2
        rw [heq] at this
        simp [updf] at this
        omega
      refine ⟨List.nodup_cons.mpr ⟨fun hmem => hne c hmem rfl, hnd⟩, ?_⟩
      intro c' hc'
      rcases List.mem_cons.mp hc' with h | h
      · exact h ▸ ⟨hcW, hc0⟩
      · have := hall c' h
        refine ⟨this.1, ?_⟩
        have h2 := this.2
        simpa [updf, hne c' h] using h2
    · rintro ⟨hnd, hall⟩
      obtain ⟨hcnotin, hnd'⟩ := List.nodup_cons.mp hnd
      refine ⟨(hall c (List.mem_cons_self c cs)).1, (hall c (List.mem_cons_self c cs)).2, ?_⟩
      apply (ih (updf uC c ((r : Int) + 1)) (r + 1)).mpr
      refine ⟨hnd', ?_⟩
      intro c' hc'
      have hne : c' ≠ c := fun h => hcnotin (h ▸ hc')
      exact ⟨(hall c' (List.mem_cons_of_mem c hc')).1,
        by simpa [updf, hne] using (hall c' (List.mem_cons_of_mem c hc')).2⟩

/-- Claim C1 (amended): for every non-null matrix with positive
dimensions, the sum `BacktrackAlgorithm` returns is `max 0 S` where `S`
is the true maximum over complete assignments (one column per row,
pairwise distinct): the returned sum is nonnegative, at least the sum of
every complete assignment, and equal to some complete assignment's sum
unless it is 0.  In particular when `W < H` (no complete assignment
exists) or when every complete assignment has negative sum, the solver
returns 0 instead of the claimed maximum, because `*maxSum` starts at 0
and leaves are only reached after assigning every row. -/
theorem backtrack_returns_clamped_optimum :
    ∀ (M : Matrix) (res : BacktrackResult),
      BacktrackAlgorithm (some M) = .ok res →
      0 ≤ res.maxSum ∧
        (∀ ρ, ValidAssign M ρ → pathSum M 0 ρ ≤ res.maxSum) ∧
        (res.maxSum = 0 ∨ ∃ ρ, ValidAssign M ρ ∧ pathSum M 0 ρ = res.maxSum) := by
  intro M res hres
  by_cases h : M.width ≤ 0 ∨ M.height ≤ 0
  · simp [BacktrackAlgorithm, h] at hres
  · simp only [BacktrackAlgorithm, h, if_false, Except.ok.injEq] at hres
    subst hres
    refine ⟨?_, ?_, ?_⟩
    · exact explore_mono M M.H 0 0 (fun _ => false) (fun _ => 0) ⟨0, []⟩
    · intro ρ hρ
      have hfree : freeExtension M (fun _ => 0) 0 ρ :=
        (freeExtension_iff M ρ (fun _ => 0) 0).mpr
          ⟨hρ.2.1, fun c hc => ⟨hρ.2.2 c hc, rfl⟩⟩
      have := explore_ge_pathSum M ρ M.H 0 0 (fun _ => false) (fun _ => 0) ⟨0, []⟩
        hfree (by simp [hρ.1]) (by simp [hρ.1]) (fun _ _ => rfl)
      simpa using this
    · rcases explore_achieves M M.H 0 0 (fun _ => false) (fun _ => 0) ⟨0, []⟩ with
        h1 | ⟨ρ, h1, h2, h3⟩
      · left
        exact h1
      · right
        obtain ⟨hnd, hall⟩ := (freeExtension_iff M ρ (fun _ => 0) 0).mp h1
        refine ⟨ρ, ⟨by simpa using h2, hnd, fun c hc => (hall c hc).1⟩, ?_⟩
        simpa using h3.symm

/-- Witness for claim C1 (amended) at the matrix [[1,2],[3,4]]: the
solver returns 5, which satisfies the max-characterisation. -/
theorem backtrack_returns_clamped_optimum_witness :
    0 ≤ (5 : Int) ∧
      (∀ ρ, ValidAssign (mkMatrix [[1, 2], [3, 4]]) ρ →
        pathSum (mkMatrix [[1, 2], [3, 4]]) 0 ρ ≤ 5) ∧
      ((5 : Int) = 0 ∨ ∃ ρ, ValidAssign (mkMatrix [[1, 2], [3, 4]]) ρ ∧
        pathSum (mkMatrix [[1, 2], [3, 4]]) 0 ρ = 5) :=
  backtrack_returns_clamped_optimum (mkMatrix [[1, 2], [3, 4]])
    ⟨5, 2, [⟨0, 0, 1⟩, ⟨1, 1, 4⟩]⟩ (by rfl)

/-- Claim C1 counterexample: on the 1-wide, 2-high matrix [[5],[7]]
(non-null, positive width and height) the solver returns sum 0, yet the
single-cell selection [(1,0)] has pairwise-distinct rows and columns, at
most min(H,W) = 1 cells, and sum 7 > 0: the returned sum is not the true
maximum over valid selections. -/
theorem backtrack_misses_optimum_on_tall_matrix :
    BacktrackAlgorithm (some (mkMatrix [[5], [7]])) = .ok ⟨0, 0, []⟩ ∧
      ClaimSelection (mkMatrix [[5], [7]]) [(1, 0)] ∧
      claimSelSum (mkMatrix [[5], [7]]) [(1, 0)] = 7 ∧ ¬((7 : Int) ≤ 0) := by
  refine ⟨by rfl, by decide, by rfl, by decide⟩

/-! ## The greedy sum is bounded by the backtrack sum when the greedy
pass completes every row (claim C3) -/

/-- The invariant of the greedy row loop after processing rows
`0 .. n-1` on a matrix where every row selects: rows from `n` on are
unmarked, the used-column marks are exactly the chosen columns, chosen
columns are distinct and in range, chosen rows are `0 .. n-1` in order,
and the running sum and value array match the chosen cells. -/
def GInv (M : Matrix) (n : Nat) (st : GreedyState) : Prop :=
  (∀ j, n ≤ j → st.usedRows j = false) ∧
    (∀ c : Int, st.usedCols c = true ↔ c ∈ st.chosen.map Prod.snd) ∧
    (st.chosen.map Prod.snd).Nodup ∧
    st.chosen.map Prod.fst = List.range n ∧
    (∀ p ∈ st.chosen, 0 ≤ p.2 ∧ p.2 < M.width) ∧
    st.maxSum = (st.chosen.map (fun p => valueAt M p.1 p.2.toNat)).sum ∧
    st.maxSelection = st.chosen.map (fun p => valueAt M p.1 p.2.toNat)

/-- If some free-column element of the row has value above the sentinel,
the scan returns an element, and it sits in a free column. -/
theorem greedyRowScan_found {uC : Int → Bool} {cells : List Cell}
    (cell0 : Cell) (h0 : cell0 ∈ cells) (hc0 : uC cell0.column = false)
    (hv0 : INT_MIN < cell0.value) :
    ∃ c', greedyRowScan false uC cells = some c' ∧ c' ∈ cells ∧ uC c'.column = false := by
  have hP := foldl_inv
    (fun (acc : Int × Option Cell) => acc = (INT_MIN, none) ∨
      ∃ c', acc.2 = some c' ∧ c' ∈ cells ∧ uC c'.column = false)
    (fun (acc : Int × Option Cell) cell =>
      if (false : Bool) = false ∧ uC cell.column = false ∧ cell.value > acc.1 then
        (cell.value, some cell)
      else acc)
    cells (INT_MIN, none) (Or.inl rfl)
    (by
      intro b x hx hb
      dsimp only
      by_cases hcond : (false : Bool) = false ∧ uC x.column = false ∧ x.value > b.1
      · rw [if_pos hcond]
        exact Or.inr ⟨x, rfl, hx, hcond.2.1⟩
      · rw [if_neg hcond]
        exact hb)
  have hQ := foldl_pred_reach
    (fun (acc : Int × Option Cell) => INT_MIN < acc.1)
    (fun (acc : Int × Option Cell) cell =>
      if (false : Bool) = false ∧ uC cell.column = false ∧ cell.value > acc.1 then
        (cell.value, some cell)
      else acc)
    cell0
    (by
      intro b
      dsimp only
      by_cases hcond : (false : Bool) = false ∧ uC cell0.column = false ∧ cell0.value > b.1
      · rw [if_pos hcond]
        exact hv0
      · rw [if_neg hcond]
        have hnotgt : ¬ cell0.value > b.1 := fun hgt => hcond ⟨rfl, hc0, hgt⟩
        exact lt_of_lt_of_le hv0 (le_of_not_lt hnotgt))
    (by
      intro b y hQb
      dsimp only at hQb ⊢
      by_cases hcond : (false : Bool) = false ∧ uC y.column = false ∧ y.value > b.1
      · rw [if_pos hcond]
        exact lt_trans hQb hcond.2.2
      · rw [if_neg hcond]
        exact hQb)
    cells (INT_MIN, none) h0
  rcases hP with h | ⟨c', hsome, hmem, hfree⟩
  · rw [h] at hQ
    exact absurd hQ (lt_irrefl INT_MIN)
  · exact ⟨c', by unfold greedyRowScan; rw [hsome], hmem, hfree⟩

/-- In a well-formed matrix the column fields of a row are exactly
`0 .. W-1` in order. -/
theorem wf_row_columns {M : Matrix} (hWF : WellFormed M) {row : List Cell}
    (hrow : row ∈ M.head) :
    row.map Cell.column = (List.range M.W).map (Nat.cast : Nat → Int) := by
  obtain ⟨hlen, hcol⟩ := hWF.2.2.2 row hrow
  apply List.ext_get
  · rw [List.length_map, List.length_map, hlen, List.length_range]
  · intro i h1 h2
    have hi : i < row.length := by simpa using h1
    rw [List.get_map, List.get_map]
    rw [hcol i hi]
    congr 1
    exact (List.get_range i _).symm

/-- Summing the recorded values of consecutive-row choices is the path
sum along their columns. -/
theorem chosen_sum_eq_pathSum (M : Matrix) :
    ∀ (ch : List (Nat × Int)) (k : Nat),
      ch.map Prod.fst = List.range' k ch.length →
      (ch.map (fun p => valueAt M p.1 p.2.toNat)).sum =
        pathSum M k (ch.map (fun p => p.2.toNat)) := by
  intro ch
  induction ch with
  | nil => intro k _; simp [pathSum]
  | cons p ch ih =>
    intro k hfst
    simp only [List.map_cons, List.length_cons, List.range'_succ] at hfst
    injection hfst with h1 h2
    simp only [List.map_cons, List.sum_cons, pathSum]
    rw [ih (k + 1) h2, h1]

/-- On a well-formed matrix with `H ≤ W` and every entry above
`INT_MIN`, the greedy loop selects exactly one element in every row and
the invariant `GInv` is carried to the end. -/
theorem greedyLoop_completes (M : Matrix) (hWF : WellFormed M) (hHW : M.H ≤ M.W)
    (hmin : ∀ row ∈ M.head, ∀ e ∈ row, INT_MIN < e.value) :
    ∀ (rows : List (List Cell)) (n : Nat) (st : GreedyState),
      M.head.drop n = rows → GInv M n st →
      GInv M (n + rows.length) (greedyLoop rows n st) := by
  intro rows
  induction rows with
  | nil => intro n st _ hinv; simpa [greedyLoop] using hinv
  | cons cells rest ih =>
    intro n st hdrop hinv
    obtain ⟨hur, hiff, hnd, hfst, hbounds, hsum, hsel⟩ := hinv
    have hlenlt : n < M.head.length := by
      have := congrArg List.length hdrop
      simp only [List.length_drop, List.length_cons] at this
      omega
    have hsplit := (List.drop_eq_get_cons hlenlt).symm.trans hdrop
    injection hsplit with hcells hrest
    have hmem : cells ∈ M.head := hcells ▸ List.get_mem M.head n hlenlt
    obtain ⟨hrowlen, hrowcol⟩ := hWF.2.2.2 cells hmem
    have hnH : n < M.H := by rw [← hWF.2.2.1]; exact hlenlt
    have hchlen : st.chosen.length = n := by
      have := congrArg List.length hfst
      simpa using this
    -- a free column with a selectable value exists in this row
    have hexists : ∃ cell0 ∈ cells, st.usedCols cell0.column = false := by
      by_contra hno
      push_neg at hno
      have hsubset : cells.map Cell.column ⊆ st.chosen.map Prod.snd := by
        intro x hx
        obtain ⟨cell, hcellmem, hcol⟩ := List.mem_map.mp hx
        have := hno cell hcellmem
        simp only [ne_eq, Bool.not_eq_false] at this
        exact (hiff x).mp (hcol ▸ this)
      have hndcols : (cells.map Cell.column).Nodup := by
        rw [wf_row_columns hWF hmem]
        exact (List.nodup_range M.W).map (fun a b h => by omega)
      have hle := (hndcols.subperm hsubset).length_le
      simp only [List.length_map, hrowlen, hchlen] at hle
      omega
    obtain ⟨cell0, hcell0mem, hcell0free⟩ := hexists
    obtain ⟨c', hscan, hc'mem, hc'free⟩ :=
      greedyRowScan_found cell0 hcell0mem hcell0free (hmin cells hmem cell0 hcell0mem)
    -- the position and value of the found element
    obtain ⟨⟨i, hilt⟩, hget⟩ := List.mem_iff_get.mp hc'mem
    have hc'col : c'.column = (i : Int) := by rw [← hget]; exact hrowcol i hilt
    have hval : valueAt M n c'.column.toNat = c'.value := by
      rw [hc'col]
      simp only [Int.toNat_ofNat]
      unfold valueAt cellAt
      rw [List.get?_eq_get hlenlt, hcells]
      simp only [Option.some_bind]
      rw [show cells.get? i = some c' by rw [List.get?_eq_get hilt, hget]]
      rfl
    have hibound : (i : Int) < M.width := by
      have : i < M.W := hrowlen ▸ hilt
      unfold Matrix.W at this
      omega
    -- take the step
    simp only [greedyLoop, hur n (le_refl n), hscan]
    have hstep := ih (n + 1)
      ⟨st.maxSum + c'.value, st.maxSelection ++ [c'.value],
        st.chosen ++ [(n, c'.column)], updf st.usedRows n true,
        updf st.usedCols c'.column true⟩
      (by rw [← hrest])
      (by
        refine ⟨?_, ?_, ?_, ?_, ?_, ?_, ?_⟩
        · intro j hj
          have : j ≠ n := by omega
          simp only [updf, this, if_false]
          exact hur j (by omega)
        · intro c
          simp only [updf, List.map_append, List.map_cons, List.map_nil, List.mem_append,
            List.mem_singleton]
          by_cases hc : c = c'.column
          · simp [hc]
          · simp only [hc, if_false]
            rw [hiff c]
            simp [hc]
        · simp only [List.map_append, List.map_cons, List.map_nil]
          refine List.Nodup.append hnd (List.nodup_singleton _) ?_
          intro x hx hx'
          rw [List.mem_singleton] at hx'
          subst hx'
          exact absurd ((hiff c'.column).mpr hx) (by simp [hc'free])
        · simp only [List.map_append, List.map_cons, List.map_nil, hfst]
          exact (List.range_succ n).symm
        · intro p hp
          rcases List.mem_append.mp hp with h | h
          · exact hbounds p h
          · rw [List.mem_singleton] at h
            subst h
            exact ⟨by rw [hc'col]; omega, by rw [hc'col]; exact hibound⟩
        · simp only [List.map_append, List.map_cons, List.map_nil, List.sum_append,
            List.sum_cons, List.sum_nil, add_zero, hsum, hval]
        · simp only [List.map_append, List.map_cons, List.map_nil, hsel, hval])
    simpa [Nat.add_comm, Nat.add_assoc, Nat.add_left_comm] using hstep

/-- Claim C3 counterexample: on the 1-wide, 2-high matrix [[5],[7]]
(non-null, positive dimensions) the greedy solver returns sum 5 but the
backtrack solver returns sum 0: `greedySum ≤ backtrackSum` fails. -/
theorem greedy_exceeds_backtrack_on_tall_matrix :
    (GreedyAlgorithm (some (mkMatrix [[5], [7]]))).map GreedyResult.maxSum = .ok 5 ∧
      BacktrackAlgorithm (some (mkMatrix [[5], [7]])) = .ok ⟨0, 0, []⟩ ∧
      ¬((5 : Int) ≤ 0) := by
  refine ⟨by rfl, by rfl, by decide⟩

/-- Claim C3 (amended): on a well-formed matrix with `H ≤ W` whose
entries all exceed `INT_MIN`, the greedy selection is a complete
assignment, so its sum is bounded by the backtrack sum.  (Without
`H ≤ W` the backtrack solver returns 0 and greedy can exceed it, as the
counterexample shows; a row whose free entries are all `INT_MIN` can
likewise leave greedy with a partial selection beating the clamped
backtrack result.) -/
theorem greedy_le_backtrack_of_complete :
    ∀ (M : Matrix) (gres : GreedyResult) (bres : BacktrackResult),
      WellFormed M → M.H ≤ M.W →
      (∀ row ∈ M.head, ∀ e ∈ row, INT_MIN < e.value) →
      GreedyAlgorithm (some M) = .ok gres →
      BacktrackAlgorithm (some M) = .ok bres →
      gres.maxSum ≤ bres.maxSum := by
  intro M gres bres hWF hHW hmin hg hb
  have hw : ¬ M.width ≤ 0 := not_le.mpr hWF.1
  have hwh : ¬(M.width ≤ 0 ∨ M.height ≤ 0) := by
    push_neg
    exact ⟨hWF.1, hWF.2.1⟩
  simp only [GreedyAlgorithm, hw, if_false, Except.ok.injEq] at hg
  simp only [BacktrackAlgorithm, hwh, if_false, Except.ok.injEq] at hb
  subst hg
  subst hb
  have hrun := greedyLoop_completes M hWF hHW hmin M.head 0
    ⟨0, [], [], fun _ => false, fun _ => false⟩ rfl
    ⟨fun _ _ => rfl, by simp, List.nodup_nil, rfl, by simp, rfl, rfl⟩
  rw [Nat.zero_add, hWF.2.2.1] at hrun
  obtain ⟨_, _, hnd, hfst, hbounds, hsum, _⟩ := hrun
  set final := greedyLoop M.head 0 ⟨0, [], [], fun _ => false, fun _ => false⟩ with hfinal
  have hchlen : final.chosen.length = M.H := by
    have := congrArg List.length hfst
    simpa using this
  have hvalid : ValidAssign M (final.chosen.map (fun p => p.2.toNat)) := by
    refine ⟨by simpa using hchlen, ?_, ?_⟩
    · have : final.chosen.map (fun p => p.2.toNat) =
          (final.chosen.map Prod.snd).map Int.toNat := by
        simp [List.map_map]
      rw [this]
      apply hnd.map_on
      intro x hx y hy hxy
      obtain ⟨px, hpx, hpx2⟩ := List.mem_map.mp hx
      obtain ⟨py, hpy, hpy2⟩ := List.mem_map.mp hy
      have h0x : 0 ≤ x := hpx2 ▸ (hbounds px hpx).1
      have h0y : 0 ≤ y := hpy2 ▸ (hbounds py hpy).1
      omega
    · intro c hc
      obtain ⟨p, hp, hpc⟩ := List.mem_map.mp hc
      have := hbounds p hp
      subst hpc
      unfold Matrix.W
      omega
  have hpath : pathSum M 0 (final.chosen.map (fun p => p.2.toNat)) = final.maxSum := by
    rw [hsum, chosen_sum_eq_pathSum M final.chosen 0 (by rw [hfst, hchlen, List.range_eq_range'])]
  have hfree : freeExtension M (fun _ => 0) 0 (final.chosen.map (fun p => p.2.toNat)) :=
    (freeExtension_iff M _ (fun _ => 0) 0).mpr
      ⟨hvalid.2.1, fun c hc => ⟨hvalid.2.2 c hc, rfl⟩⟩
  have := explore_ge_pathSum M (final.chosen.map (fun p => p.2.toNat)) M.H 0 0
    (fun _ => false) (fun _ => 0) ⟨0, []⟩ hfree (by simp [hvalid.1])
    (by simp [hvalid.1]) (fun _ _ => rfl)
  rw [hpath] at this
  simpa using this

/-- Witness for claim C3 (amended) at the matrix [[1,2],[3,4]]: both
runs succeed and 5 ≤ 5. -/
theorem greedy_le_backtrack_of_complete_witness :
    (⟨5, [2, 3], 2, [(0, 1), (1, 0)]⟩ : GreedyResult).maxSum ≤
      (⟨5, 2, [⟨0, 0, 1⟩, ⟨1, 1, 4⟩]⟩ : BacktrackResult).maxSum :=
  greedy_le_backtrack_of_complete (mkMatrix [[1, 2], [3, 4]])
    ⟨5, [2, 3], 2, [(0, 1), (1, 0)]⟩ ⟨5, 2, [⟨0, 0, 1⟩, ⟨1, 1, 4⟩]⟩
    (by decide) (by decide) (by decide) (by rfl) (by rfl)

/-! ## Selection invariants of the three solvers (claims C4, C5) -/

/-- A duplicate-free list of naturals below `n` has at most `n`
elements. -/
theorem length_le_of_nodup_lt {l : List Nat} {n : Nat} (hnd : l.Nodup)
    (hlt : ∀ x ∈ l, x < n) : l.length ≤ n := by
  have := (hnd.subperm (fun x hx => List.mem_range.mpr (hlt x hx))).length_le
  simpa using this

/-- A duplicate-free list of integers in `[0, n)` has at most `n`
elements. -/
theorem length_le_of_nodup_int {l : List Int} {n : Nat} (hnd : l.Nodup)
    (hlt : ∀ x ∈ l, 0 ≤ x ∧ x < (n : Int)) : l.length ≤ n := by
  have hmap : (l.map Int.toNat).Nodup := hnd.map_on (fun x hx y hy h => by
    have hx' := hlt x hx
    have hy' := hlt y hy
    omega)
  have hbound : ∀ x ∈ l.map Int.toNat, x < n := by
    intro x hx
    obtain ⟨y, hy, hyx⟩ := List.mem_map.mp hx
    have := hlt y hy
    omega
  have := length_le_of_nodup_lt hmap hbound
  simpa using this

/-- A set at an index reads back the written value. -/
theorem getD_set_self {l : List Bool} {i : Nat} {b d : Bool} (h : i < l.length) :
    (l.set i b).getD i d = b := by
  simp [List.getD_eq_getElem?_getD, List.getElem?_set_self h]

/-- A set at one index leaves other reads unchanged. -/
theorem getD_set_ne {l : List Bool} {i j : Nat} {b d : Bool} (h : i ≠ j) :
    (l.set i b).getD j d = l.getD j d := by
  simp [List.getD_eq_getElem?_getD, List.getElem?_set_ne h]

/-- `CopySelectedValues` records exactly the marked indices below the
height, in index order. -/
theorem copySelectedValues_eq (M : Matrix) (uC : Nat → Int) :
    copySelectedValues M uC =
      ((List.range M.H).filter (fun i => decide ¬(uC i = 0))).map
        (fun i => ⟨(i : Int), uC i - 1, valueAt M i (uC i - 1).toNat⟩) := by
  unfold copySelectedValues
  rw [foldl_append_if (fun i => uC i = 0)
    (fun i => (⟨(i : Int), uC i - 1, valueAt M i (uC i - 1).toNat⟩ : SelectedElement))
    (List.range M.H) []]
  simp

/-- The invariant of the backtrack `usedColumns` array along a branch at
row `r`: marks sit on in-range columns, hold values in `[1, r]`, and are
injective. -/
def UCinv (M : Matrix) (r : Nat) (uC : Nat → Int) : Prop :=
  ∀ i, uC i ≠ 0 → i < M.W ∧ 0 < uC i ∧ uC i ≤ (r : Int) ∧ ∀ j, uC j = uC i → j = i

/-- Marking a fresh in-range column preserves the mark invariant at the
next row. -/
theorem UCinv_updf {M : Matrix} {r : Nat} {uC : Nat → Int} (hinv : UCinv M r uC)
    {i : Nat} (hiW : i < M.W) (hi0 : uC i = 0) :
    UCinv M (r + 1) (updf uC i ((r : Int) + 1)) := by
  intro k hk
  by_cases hki : k = i
  · have hkv : updf uC i ((r : Int) + 1) k = (r : Int) + 1 := by
      simp [updf, hki]
    refine ⟨hki ▸ hiW, ?_, ?_, ?_⟩
    · rw [hkv]
      omega
    · rw [hkv]
      push_cast
      omega
    · intro j hj
      by_cases hji : j = i
      · rw [hji, hki]
      · exfalso
        rw [hkv] at hj
        have hj' : uC j = (r : Int) + 1 := by
          simpa [updf, hji] using hj
        have hj0 : uC j ≠ 0 := by rw [hj']; omega
        have := (hinv j hj0).2.2.1
        omega
  · have hk' : uC k ≠ 0 := by simpa [updf, hki] using hk
    obtain ⟨h1, h2, h3, h4⟩ := hinv k hk'
    refine ⟨h1, ?_, ?_, ?_⟩
    · simpa [updf, hki] using h2
    · simp only [updf, hki, if_false]
      push_cast
      omega
    · intro j hj
      simp only [updf, hki, if_false] at hj
      by_cases hji : j = i
      · exfalso
        rw [if_pos hji] at hj
        omega
      · rw [if_neg hji] at hj
        exact h4 j hj

/-- The selection invariants of claim C4, for a backtrack selection
list. -/
theorem copySelectedValues_selOK (M : Matrix) (r : Nat) (uC : Nat → Int)
    (hinv : UCinv M r uC) :
    ((copySelectedValues M uC).map SelectedElement.row).Nodup ∧
      ((copySelectedValues M uC).map SelectedElement.col).Nodup ∧
      (copySelectedValues M uC).length ≤ min M.H M.W := by
  rw [copySelectedValues_eq]
  have hndl : ((List.range M.H).filter (fun i => decide ¬(uC i = 0))).Nodup :=
    (List.nodup_range M.H).filter _
  have hmem : ∀ i ∈ (List.range M.H).filter (fun i => decide ¬(uC i = 0)),
      i < M.H ∧ uC i ≠ 0 := by
    intro i hi
    rw [List.mem_filter] at hi
    exact ⟨List.mem_range.mp hi.1, by simpa using hi.2⟩
  refine ⟨?_, ?_, ?_⟩
  · rw [List.map_map]
    apply hndl.map_on
    intro x hx y hy h
    simp only [Function.comp] at h
    omega
  · rw [List.map_map]
    apply hndl.map_on
    intro x hx y hy h
    simp only [Function.comp] at h
    have hx' := hmem x hx
    have hy' := hmem y hy
    have heq : uC x = uC y := by omega
    exact (hinv y hy'.2).2.2.2 x heq
  · rw [List.length_map]
    apply length_le_of_nodup_lt hndl
    intro x hx
    have h1 := hmem x hx
    have h2 := (hinv x h1.2).1
    omega

/-- The search result's selection always satisfies the claim-C4
invariants: it is either the initial snapshot or a copy made at a leaf
whose marks satisfy `UCinv`. -/
theorem explore_selOK (M : Matrix) :
    ∀ (fuel r : Nat) (s : Int) (uR : Nat → Bool) (uC : Nat → Int) (best : Best),
      UCinv M r uC →
      ((best.selection.map SelectedElement.row).Nodup ∧
        (best.selection.map SelectedElement.col).Nodup ∧
        best.selection.length ≤ min M.H M.W) →
      (((explore M fuel r s uR uC best).selection.map SelectedElement.row).Nodup ∧
        ((explore M fuel r s uR uC best).selection.map SelectedElement.col).Nodup ∧
        (explore M fuel r s uR uC best).selection.length ≤ min M.H M.W) := by
  intro fuel
  induction fuel with
  | zero =>
    intro r s uR uC best hinv hbest
    by_cases hr : r = M.H
    · subst hr
      rw [explore_leaf]
      by_cases hgt : s > best.maxSum
      · rw [if_pos hgt]
        exact copySelectedValues_selOK M M.H uC hinv
      · rw [if_neg hgt]
        exact hbest
    · simpa [explore, hr] using hbest
  | succ fuel ih =>
    intro r s uR uC best hinv hbest
    by_cases hr : r = M.H
    · subst hr
      rw [explore_leaf]
      by_cases hgt : s > best.maxSum
      · rw [if_pos hgt]
        exact copySelectedValues_selOK M M.H uC hinv
      · rw [if_neg hgt]
        exact hbest
    · simp only [explore, hr, if_false]
      apply foldl_inv
        (fun (b : Best) =>
          (b.selection.map SelectedElement.row).Nodup ∧
            (b.selection.map SelectedElement.col).Nodup ∧
            b.selection.length ≤ min M.H M.W)
        (fun b i =>
          if uR r = false ∧ uC i = 0 then
            explore M fuel (r + 1) (s + valueAt M r i)
              (updf uR r true) (updf uC i ((r : Int) + 1)) b
          else b)
        (List.range M.W) best hbest
      intro b i hi hb
      by_cases hc : uR r = false ∧ uC i = 0
      · rw [if_pos hc]
        exact ih (r + 1) (s + valueAt M r i) (updf uR r true)
          (updf uC i ((r : Int) + 1)) b
          (UCinv_updf hinv (List.mem_range.mp hi) hc.2) hb
      · rw [if_neg hc]
        exact hb

/-- The scan result of greedy.c lies in the scanned row, in an unused
column. -/
theorem greedyRowScan_some_mem {u : Bool} {uC : Int → Bool} {cells : List Cell} {c : Cell}
    (h : greedyRowScan u uC cells = some c) : c ∈ cells ∧ uC c.column = false := by
  have key := foldl_inv
    (fun (acc : Int × Option Cell) =>
      ∀ c', acc.2 = some c' → c' ∈ cells ∧ uC c'.column = false)
    (fun (acc : Int × Option Cell) cell =>
      if u = false ∧ uC cell.column = false ∧ cell.value > acc.1 then
        (cell.value, some cell)
      else acc)
    cells (INT_MIN, none) (fun c' hc' => by cases hc')
    (by
      intro b x hx hb
      dsimp only
      by_cases hcond : u = false ∧ uC x.column = false ∧ x.value > b.1
      · rw [if_pos hcond]
        intro c' hc'
        cases hc'
        exact ⟨hx, hcond.2.1⟩
      · rw [if_neg hcond]
        exact hb)
  exact key c h

/-- The invariant of greedy.c's row loop that holds on every well-formed
matrix: marks match the chosen columns, chosen rows and columns are
duplicate-free and in range, and the value array tracks the sum. -/
def GInvW (M : Matrix) (n : Nat) (st : GreedyState) : Prop :=
  (∀ j, n ≤ j → st.usedRows j = false) ∧
    (∀ c : Int, st.usedCols c = true ↔ c ∈ st.chosen.map Prod.snd) ∧
    (st.chosen.map Prod.snd).Nodup ∧
    (st.chosen.map Prod.fst).Nodup ∧
    (∀ p ∈ st.chosen, p.1 < n ∧ 0 ≤ p.2 ∧ p.2 < M.width) ∧
    st.maxSum = st.maxSelection.sum ∧
    st.maxSelection.length = st.chosen.length

/-- The greedy row loop preserves `GInvW` on every well-formed matrix,
whether or not each row finds an element. -/
theorem greedyLoop_weak_inv (M : Matrix) (hWF : WellFormed M) :
    ∀ (rows : List (List Cell)) (n : Nat) (st : GreedyState),
      M.head.drop n = rows → GInvW M n st →
      GInvW M (n + rows.length) (greedyLoop rows n st) := by
  intro rows
  induction rows with
  | nil => intro n st _ hinv; simpa [greedyLoop] using hinv
  | cons cells rest ih =>
    intro n st hdrop hinv
    obtain ⟨hur, hiff, hndc, hndr, hbounds, hsum, hlen⟩ := hinv
    have hlenlt : n < M.head.length := by
      have := congrArg List.length hdrop
      simp only [List.length_drop, List.length_cons] at this
      omega
    have hsplit := (List.drop_eq_get_cons hlenlt).symm.trans hdrop
    injection hsplit with hcells hrest
    have hmem : cells ∈ M.head := hcells ▸ List.get_mem M.head n hlenlt
    simp only [greedyLoop]
    cases hscan : greedyRowScan (st.usedRows n) st.usedCols cells with
    | none =>
      have hnext := ih (n + 1) st (by rw [← hrest])
        ⟨fun j hj => hur j (by omega), hiff, hndc, hndr,
          fun p hp => ⟨by have := (hbounds p hp).1; omega, (hbounds p hp).2.1,
            (hbounds p hp).2.2⟩, hsum, hlen⟩
      simpa [Nat.add_comm, Nat.add_assoc, Nat.add_left_comm] using hnext
    | some c' =>
      obtain ⟨hc'mem, hc'free⟩ := greedyRowScan_some_mem hscan
      have hcolbound : 0 ≤ c'.column ∧ c'.column < M.width := by
        have hcol : c'.column ∈ cells.map Cell.column := List.mem_map_of_mem _ hc'mem
        rw [wf_row_columns hWF hmem] at hcol
        obtain ⟨k, hk, hkc⟩ := List.mem_map.mp hcol
        have hkW := List.mem_range.mp hk
        rw [← hkc]
        unfold Matrix.W at hkW
        omega
      have hnext := ih (n + 1)
        ⟨st.maxSum + c'.value, st.maxSelection ++ [c'.value],
          st.chosen ++ [(n, c'.column)], updf st.usedRows n true,
          updf st.usedCols c'.column true⟩
        (by rw [← hrest])
        (by
          refine ⟨?_, ?_, ?_, ?_, ?_, ?_, ?_⟩
          · intro j hj
            have hjne : j ≠ n := by omega
            simp only [updf, hjne, if_false]
            exact hur j (by omega)
          · intro c
            simp only [updf, List.map_append, List.map_cons, List.map_nil, List.mem_append,
              List.mem_singleton]
            by_cases hc : c = c'.column
            · simp [hc]
            · simp only [hc, if_false]
              rw [hiff c]
              simp [hc]
          · simp only [List.map_append, List.map_cons, List.map_nil]
            refine List.Nodup.append hndc (List.nodup_singleton _) ?_
            intro x hx hx'
            rw [List.mem_singleton] at hx'
            subst hx'
            exact absurd ((hiff c'.column).mpr hx) (by simp [hc'free])
          · simp only [List.map_append, List.map_cons, List.map_nil]
            refine List.Nodup.append hndr (List.nodup_singleton _) ?_
            intro x hx hx'
            rw [List.mem_singleton] at hx'
            subst hx'
            obtain ⟨p, hp, hpn⟩ := List.mem_map.mp hx
            have := (hbounds p hp).1
            omega
          · intro p hp
            rcases List.mem_append.mp hp with h | h
            · exact ⟨by have := (hbounds p h).1; omega, (hbounds p h).2.1,
                (hbounds p h).2.2⟩
            · rw [List.mem_singleton] at h
              subst h
              exact ⟨by omega, hcolbound.1, hcolbound.2⟩
          · simp [hsum]
          · simp [hlen])
      simpa [Nat.add_comm, Nat.add_assoc, Nat.add_left_comm] using hnext

/-- Whatever `findZeroCol` returns came from the scanned column list,
holds a zero, and was unclaimed. -/
theorem findZeroCol_spec (finalM : Matrix) (row : Nat) (claimed : List Bool) :
    ∀ (cols : List Nat) (c : Nat), findZeroCol finalM row claimed cols = some c →
      c ∈ cols ∧ valueAt finalM row c = 0 ∧ claimed.getD c false = false := by
  intro cols
  induction cols with
  | nil => intro c h; cases h
  | cons x cols ih =>
    intro c h
    unfold findZeroCol at h
    by_cases hc : valueAt finalM row x = 0 ∧ claimed.getD x false = false
    · rw [if_pos hc] at h
      cases h
      exact ⟨List.mem_cons_self x cols, hc.1, hc.2⟩
    · rw [if_neg hc] at h
      obtain ⟨h1, h2, h3⟩ := ih c h
      exact ⟨List.mem_cons_of_mem x h1, h2, h3⟩

/-- The invariant of `ExtractFinalSolution`'s row loop: assigned rows
are distinct and below the bound, assigned columns are distinct,
claimed, and in range, and the sum tracks the recorded values. -/
def EInv (numCols : Nat) (bound : Nat) (st : ExtractState) : Prop :=
  (st.pairs.map Prod.fst).Nodup ∧
    (st.pairs.map Prod.snd).Nodup ∧
    (∀ p ∈ st.pairs, p.1 < bound ∧ p.2 < numCols) ∧
    (∀ p ∈ st.pairs, st.claimed.getD p.2 false = true) ∧
    st.claimed.length = numCols ∧
    st.sum = st.chosenElements.sum ∧
    st.chosenElements.length = st.pairs.length

/-- The extraction row loop carries `EInv` across any block of
consecutive rows. -/
theorem extract_fold_inv (origM finalM : Matrix) (numCols : Nat) :
    ∀ (m k : Nat) (st : ExtractState), EInv numCols k st →
      EInv numCols (k + m)
        ((List.range' k m).foldl
          (fun (st : ExtractState) row =>
            match findZeroCol finalM row st.claimed (List.range numCols) with
            | some c =>
              ⟨st.sum + valueAt origM row c, st.chosenElements ++ [valueAt origM row c],
                st.pairs ++ [(row, c)], st.claimed.set c true⟩
            | none => st)
          st) := by
  intro m
  induction m with
  | zero => intro k st hinv; simpa using hinv
  | succ m ih =>
    intro k st hinv
    obtain ⟨hndr, hndc, hbounds, hclaimed, hclen, hsum, hlen⟩ := hinv
    rw [List.range'_succ, List.foldl_cons]
    have hstep : EInv numCols (k + 1)
        ((fun (st : ExtractState) row =>
          match findZeroCol finalM row st.claimed (List.range numCols) with
          | some c =>
            ⟨st.sum + valueAt origM row c, st.chosenElements ++ [valueAt origM row c],
              st.pairs ++ [(row, c)], st.claimed.set c true⟩
          | none => st) st k) := by
      dsimp only
      cases hfind : findZeroCol finalM k st.claimed (List.range numCols) with
      | none =>
        exact ⟨hndr, hndc,
          fun p hp => ⟨by have := (hbounds p hp).1; omega, (hbounds p hp).2⟩,
          hclaimed, hclen, hsum, hlen⟩
      | some c =>
        obtain ⟨hcmem, _, hcfree⟩ := findZeroCol_spec finalM k st.claimed _ c hfind
        have hcW : c < numCols := List.mem_range.mp hcmem
        refine ⟨?_, ?_, ?_, ?_, ?_, ?_, ?_⟩
        · simp only [List.map_append, List.map_cons, List.map_nil]
          refine List.Nodup.append hndr (List.nodup_singleton _) ?_
          intro x hx hx'
          rw [List.mem_singleton] at hx'
          subst hx'
          obtain ⟨p, hp, hpk⟩ := List.mem_map.mp hx
          have := (hbounds p hp).1
          omega
        · simp only [List.map_append, List.map_cons, List.map_nil]
          refine List.Nodup.append hndc (List.nodup_singleton _) ?_
          intro x hx hx'
          rw [List.mem_singleton] at hx'
          subst hx'
          obtain ⟨p, hp, hpc⟩ := List.mem_map.mp hx
          have := hclaimed p hp
          rw [hpc] at this
          rw [this] at hcfree
          cases hcfree
        · intro p hp
          rcases List.mem_append.mp hp with h | h
          · exact ⟨by have := (hbounds p h).1; omega, (hbounds p h).2⟩
          · rw [List.mem_singleton] at h
            subst h
            exact ⟨by omega, hcW⟩
        · intro p hp
          rcases List.mem_append.mp hp with h | h
          · by_cases hpc : p.2 = c
            · rw [hpc]
              exact getD_set_self (by omega)
            · rw [getD_set_ne (fun hh => hpc hh.symm)]
              exact hclaimed p h
          · rw [List.mem_singleton] at h
            subst h
            exact getD_set_self (by omega)
        · simp [hclen]
        · simp [hsum]
        · simp [hlen]
    have := ih (k + 1) _ hstep
    rw [show k + (m + 1) = (k + 1) + m by omega]
    exact this

/-- The `ExtractFinalSolution` outputs: distinct rows and columns in
range, at most `min H W` assignments, and a result equal to the sum of
the recorded values; the return code is always `SUCCESS`. -/
theorem extractFinalSolution_spec (origM finalM : Matrix) :
    ((extractFinalSolution origM finalM).pairs.map Prod.fst).Nodup ∧
      ((extractFinalSolution origM finalM).pairs.map Prod.snd).Nodup ∧
      (∀ p ∈ (extractFinalSolution origM finalM).pairs, p.1 < origM.H ∧ p.2 < origM.W) ∧
      (extractFinalSolution origM finalM).pairs.length ≤ min origM.H origM.W ∧
      (extractFinalSolution origM finalM).result =
        (extractFinalSolution origM finalM).chosenElements.sum ∧
      (extractFinalSolution origM finalM).code = SUCCESS := by
  have key := extract_fold_inv origM finalM origM.W origM.H 0
    ⟨0, [], [], List.replicate origM.W false⟩
    ⟨List.nodup_nil, List.nodup_nil, by simp, by simp, by simp, rfl, rfl⟩
  rw [Nat.zero_add, ← List.range_eq_range'] at key
  obtain ⟨hndr, hndc, hbounds, _, _, hsum, hlen⟩ := key
  refine ⟨hndr, hndc, hbounds, ?_, hsum, rfl⟩
  apply le_min
  · have h := length_le_of_nodup_lt hndr (fun x hx => by
      obtain ⟨p, hp, hpx⟩ := List.mem_map.mp hx
      exact hpx ▸ (hbounds p hp).1)
    rw [List.length_map] at h
    exact h
  · have h := length_le_of_nodup_lt hndc (fun x hx => by
      obtain ⟨p, hp, hpx⟩ := List.mem_map.mp hx
      exact hpx ▸ (hbounds p hp).2)
    rw [List.length_map] at h
    exact h

/-- Claim C4: for every well-formed matrix, the selection each solver
returns has pairwise-distinct rows, pairwise-distinct columns, and at
most `min(W, H)` elements (for greedy the cells are those it marks used;
for backtrack the recorded `SelectedElement`s; for Hungarian the
assigned cells of the extraction step). -/
theorem solver_selection_invariants :
    ∀ (M : Matrix) (gres : GreedyResult) (bres : BacktrackResult)
      (hres : HungarianOutcome) (fuel : Nat),
      WellFormed M →
      GreedyAlgorithm (some M) = .ok gres →
      BacktrackAlgorithm (some M) = .ok bres →
      HungarianAlgorithm M fuel = some hres →
      ((gres.chosen.map Prod.fst).Nodup ∧ (gres.chosen.map Prod.snd).Nodup ∧
        gres.chosen.length ≤ min M.H M.W) ∧
      ((bres.selectionValues.map SelectedElement.row).Nodup ∧
        (bres.selectionValues.map SelectedElement.col).Nodup ∧
        bres.selectionCount = bres.selectionValues.length ∧
        bres.selectionCount ≤ min M.H M.W) ∧
      ((hres.pairs.map Prod.fst).Nodup ∧ (hres.pairs.map Prod.snd).Nodup ∧
        hres.pairs.length ≤ min M.H M.W) := by
  intro M gres bres hres fuel hWF hg hb hh
  have hw : ¬ M.width ≤ 0 := not_le.mpr hWF.1
  have hwh : ¬(M.width ≤ 0 ∨ M.height ≤ 0) := by
    push_neg
    exact ⟨hWF.1, hWF.2.1⟩
  refine ⟨?_, ?_, ?_⟩
  · simp only [GreedyAlgorithm, hw, if_false, Except.ok.injEq] at hg
    subst hg
    have hrun := greedyLoop_weak_inv M hWF M.head 0
      ⟨0, [], [], fun _ => false, fun _ => false⟩ rfl
      ⟨fun _ _ => rfl, by simp, List.nodup_nil, List.nodup_nil, by simp, rfl, rfl⟩
    rw [Nat.zero_add, hWF.2.2.1] at hrun
    obtain ⟨_, _, hndc, hndr, hbounds, _, _⟩ := hrun
    refine ⟨hndr, hndc, le_min ?_ ?_⟩
    · have h := length_le_of_nodup_lt hndr (fun x hx => by
        obtain ⟨p, hp, hpx⟩ := List.mem_map.mp hx
        exact hpx ▸ (hbounds p hp).1)
      rw [List.length_map] at h
      exact h
    · have h3 : ((M.W : Nat) : Int) = M.width := by
        unfold Matrix.W
        have := hWF.1
        omega
      have hbo : ∀ x ∈ (greedyLoop M.head 0
          ⟨0, [], [], fun _ => false, fun _ => false⟩).chosen.map Prod.snd,
          0 ≤ x ∧ x < ((M.W : Nat) : Int) := by
        intro x hx
        obtain ⟨p, hp, hpx⟩ := List.mem_map.mp hx
        have hpprops := hbounds p hp
        refine ⟨hpx ▸ hpprops.2.1, ?_⟩
        rw [h3]
        exact hpx ▸ hpprops.2.2
      have h := length_le_of_nodup_int hndc hbo
      rw [List.length_map] at h
      exact h
  · simp only [BacktrackAlgorithm, hwh, if_false, Except.ok.injEq] at hb
    subst hb
    have hsel := explore_selOK M M.H 0 0 (fun _ => false) (fun _ => 0) ⟨0, []⟩
      (fun i hi => absurd rfl hi)
      ⟨List.nodup_nil, List.nodup_nil, by simp⟩
    exact ⟨hsel.1, hsel.2.1, rfl, hsel.2.2⟩
  · unfold HungarianAlgorithm at hh
    cases hloop : hungarianLoop fuel
        ⟨subtractColumnMinima (subtractRowMinima (makeNonneg (negateAll (copyMatrix M)))),
          List.replicate (copyMatrix M).H false, List.replicate (copyMatrix M).W false⟩ with
    | none => simp [hloop] at hh
    | some st =>
      simp only [hloop] at hh
      cases hh
      have hspec := extractFinalSolution_spec M st.work
      exact ⟨hspec.1, hspec.2.1, hspec.2.2.2.1⟩

/-- Witness for claim C4 at the matrix [[1,2],[3,4]] with fuel 1:
the three concrete selections satisfy the invariants. -/
theorem solver_selection_invariants_witness :
    ((([((0 : Nat), (1 : Int)), (1, 0)]).map Prod.fst).Nodup ∧
      (([((0 : Nat), (1 : Int)), (1, 0)]).map Prod.snd).Nodup ∧
      ([((0 : Nat), (1 : Int)), (1, 0)]).length ≤
        min (mkMatrix [[1, 2], [3, 4]]).H (mkMatrix [[1, 2], [3, 4]]).W) ∧
    ((([⟨0, 0, 1⟩, ⟨1, 1, 4⟩] : List SelectedElement).map SelectedElement.row).Nodup ∧
      (([⟨0, 0, 1⟩, ⟨1, 1, 4⟩] : List SelectedElement).map SelectedElement.col).Nodup ∧
      (2 : Nat) = ([⟨0, 0, 1⟩, ⟨1, 1, 4⟩] : List SelectedElement).length ∧
      (2 : Nat) ≤ min (mkMatrix [[1, 2], [3, 4]]).H (mkMatrix [[1, 2], [3, 4]]).W) ∧
    ((([((0 : Nat), (0 : Nat)), (1, 1)]).map Prod.fst).Nodup ∧
      (([((0 : Nat), (0 : Nat)), (1, 1)]).map Prod.snd).Nodup ∧
      ([((0 : Nat), (0 : Nat)), (1, 1)]).length ≤
        min (mkMatrix [[1, 2], [3, 4]]).H (mkMatrix [[1, 2], [3, 4]]).W) :=
  solver_selection_invariants (mkMatrix [[1, 2], [3, 4]])
    ⟨5, [2, 3], 2, [(0, 1), (1, 0)]⟩
    ⟨5, 2, [⟨0, 0, 1⟩, ⟨1, 1, 4⟩]⟩
    ⟨mkMatrix [[1, 2], [3, 4]], 0, [1, 4], [(0, 0), (1, 1)], 5⟩ 1
    (by decide) (by rfl) (by rfl) (by rfl)

/-- The greedy row loop keeps the running sum equal to the sum of the
stored values, on any matrix. -/
theorem greedyLoop_sum :
    ∀ (rows : List (List Cell)) (n : Nat) (st : GreedyState),
      st.maxSum = st.maxSelection.sum →
      (greedyLoop rows n st).maxSum = (greedyLoop rows n st).maxSelection.sum := by
  intro rows
  induction rows with
  | nil => intro n st h; simpa [greedyLoop] using h
  | cons cells rest ih =>
    intro n st h
    simp only [greedyLoop]
    cases hscan : greedyRowScan (st.usedRows n) st.usedCols cells with
    | none => exact ih (n + 1) st h
    | some cell => exact ih (n + 1) _ (by simp [h])

/-- Claim C5 counterexample: on the matrix [[0,10,0],[0,0,10],[10,0,0]]
(whose unique optimal assignment is the 3-cycle of 10s, sum 30) the
backtrack solver returns sum 30 but stores the transposed cells
(0,2), (1,0), (2,1), whose values sum to 0: the stored selection's
value sum differs from the returned sum. -/
theorem backtrack_sum_selection_mismatch :
    BacktrackAlgorithm (some (mkMatrix [[0, 10, 0], [0, 0, 10], [10, 0, 0]])) =
      .ok ⟨30, 3, [⟨0, 2, 0⟩, ⟨1, 0, 0⟩, ⟨2, 1, 0⟩]⟩ ∧
      (([⟨0, 2, 0⟩, ⟨1, 0, 0⟩, ⟨2, 1, 0⟩] : List SelectedElement).map
        SelectedElement.value).sum = 0 ∧
      (0 : Int) ≠ 30 := by
  refine ⟨by rfl, by rfl, by decide⟩

/-- Claim C5 (amended): the returned sum equals the sum of the stored
selection values for the greedy and Hungarian solvers; for the backtrack
solver the stored selection is the transposed assignment and its value
sum can differ from the returned sum. -/
theorem sum_matches_selection_greedy_hungarian :
    ∀ (M : Matrix) (gres : GreedyResult) (hres : HungarianOutcome) (fuel : Nat),
      GreedyAlgorithm (some M) = .ok gres →
      HungarianAlgorithm M fuel = some hres →
      gres.maxSum = gres.maxSelection.sum ∧
        hres.result = hres.chosenElements.sum := by
  intro M gres hres fuel hg hh
  constructor
  · by_cases hw : M.width ≤ 0
    · simp [GreedyAlgorithm, hw] at hg
    · simp only [GreedyAlgorithm, hw, if_false, Except.ok.injEq] at hg
      subst hg
      exact greedyLoop_sum M.head 0 ⟨0, [], [], fun _ => false, fun _ => false⟩ rfl
  · unfold HungarianAlgorithm at hh
    cases hloop : hungarianLoop fuel
        ⟨subtractColumnMinima (subtractRowMinima (makeNonneg (negateAll (copyMatrix M)))),
          List.replicate (copyMatrix M).H false, List.replicate (copyMatrix M).W false⟩ with
    | none => simp [hloop] at hh
    | some st =>
      simp only [hloop] at hh
      cases hh
      exact (extractFinalSolution_spec M st.work).2.2.2.2.1

/-- Witness for claim C5 (amended) at the matrix [[1,2],[3,4]] with fuel
1: greedy returns 5 = 2+3 and Hungarian returns 5 = 1+4. -/
theorem sum_matches_selection_greedy_hungarian_witness :
    (5 : Int) = ([2, 3] : List Int).sum ∧ (5 : Int) = ([1, 4] : List Int).sum :=
  sum_matches_selection_greedy_hungarian (mkMatrix [[1, 2], [3, 4]])
    ⟨5, [2, 3], 2, [(0, 1), (1, 0)]⟩
    ⟨mkMatrix [[1, 2], [3, 4]], 0, [1, 4], [(0, 0), (1, 1)], 5⟩ 1
    (by rfl) (by rfl)

/-! ## Shape preservation through the Hungarian passes (claim C8) -/

/-- Two matrices agree in dimensions and in the column layout of every
row (they may differ only in cell values). -/
def SameShape (A B : Matrix) : Prop :=
  A.width = B.width ∧ A.height = B.height ∧
    A.head.map (fun row => row.map Cell.column) = B.head.map (fun row => row.map Cell.column)

theorem sameShape_refl (A : Matrix) : SameShape A A := ⟨rfl, rfl, rfl⟩

theorem sameShape_trans {A B C : Matrix} (h1 : SameShape A B) (h2 : SameShape B C) :
    SameShape A C :=
  ⟨h1.1.trans h2.1, h1.2.1.trans h2.2.1, h1.2.2.trans h2.2.2⟩

/-- A per-row value transformation leaves the column layout unchanged. -/
theorem map_column_map_value (row : List Cell) (f : Cell → Cell)
    (hf : ∀ e, (f e).column = e.column) :
    (row.map f).map Cell.column = row.map Cell.column := by
  rw [List.map_map]
  exact List.map_congr_left (fun e _ => hf e)

/-- `modifyAt` leaves the column layout unchanged when the modifier
does. -/
theorem map_column_modifyAt (f : Cell → Cell) (hf : ∀ e, (f e).column = e.column) :
    ∀ (n : Nat) (row : List Cell),
      (modifyAt f n row).map Cell.column = row.map Cell.column := by
  intro n
  induction n with
  | zero =>
    intro row
    cases row with
    | nil => rfl
    | cons x xs => simp [modifyAt, hf x]
  | succ n ih =>
    intro row
    cases row with
    | nil => rfl
    | cons x xs => simp [modifyAt, ih xs]

/-- An `enumFrom`-indexed value transformation leaves the column layout
unchanged. -/
theorem map_column_enumFrom_map (f : Nat × Cell → Cell)
    (hf : ∀ cp : Nat × Cell, (f cp).column = cp.2.column) :
    ∀ (k : Nat) (row : List Cell),
      ((row.enumFrom k).map f).map Cell.column = row.map Cell.column := by
  intro k row
  induction row generalizing k with
  | nil => rfl
  | cons x xs ih => simp [List.enumFrom, hf (k, x), ih (k + 1)]

/-- `NegateAllElements` preserves the shape. -/
theorem negateAll_shape (M : Matrix) : SameShape (negateAll M) M := by
  refine ⟨rfl, rfl, ?_⟩
  show (M.head.map _).map _ = _
  rw [List.map_map]
  apply List.map_congr_left
  intro row _
  exact map_column_map_value row _ (fun e => rfl)

/-- `MakeMatrixNonnegative` preserves the shape. -/
theorem makeNonneg_shape (M : Matrix) : SameShape (makeNonneg M) M := by
  unfold makeNonneg
  by_cases h : matrixMin M < 0
  · rw [if_pos h]
    refine ⟨rfl, rfl, ?_⟩
    show (M.head.map _).map _ = _
    rw [List.map_map]
    apply List.map_congr_left
    intro row _
    exact map_column_map_value row _ (fun e => rfl)
  · rw [if_neg h]
    exact sameShape_refl M

/-- `SubtractRowMinima` preserves the shape. -/
theorem subtractRowMinima_shape (M : Matrix) : SameShape (subtractRowMinima M) M := by
  refine ⟨rfl, rfl, ?_⟩
  show (M.head.map _).map _ = _
  rw [List.map_map]
  apply List.map_congr_left
  intro row _
  exact map_column_map_value row _ (fun e => rfl)

/-- One column pass of `SubtractColumnMinima` preserves the shape. -/
theorem subtractColMin_shape (col : Nat) (M : Matrix) :
    SameShape (subtractColMin col M) M := by
  refine ⟨rfl, rfl, ?_⟩
  show (M.head.map _).map _ = _
  rw [List.map_map]
  apply List.map_congr_left
  intro row _
  simp only [Function.comp]
  apply map_column_modifyAt
  intro e
  rfl

/-- `SubtractColumnMinima` preserves the shape. -/
theorem subtractColumnMinima_shape (M : Matrix) : SameShape (subtractColumnMinima M) M := by
  unfold subtractColumnMinima
  exact foldl_inv (fun A => SameShape A M) (fun acc col => subtractColMin col acc)
    (List.range M.W) M (sameShape_refl M)
    (fun A col _ hA => sameShape_trans (subtractColMin_shape col A) hA)

/-- An `enumFrom`-indexed row transformation that leaves each row's
column layout unchanged leaves the whole layout unchanged. -/
theorem map_rows_enumFrom_map (F : Nat × List Cell → List Cell)
    (hF : ∀ rp : Nat × List Cell, (F rp).map Cell.column = rp.2.map Cell.column) :
    ∀ (k : Nat) (l : List (List Cell)),
      ((l.enumFrom k).map F).map (fun row => row.map Cell.column) =
        l.map (fun row => row.map Cell.column) := by
  intro k l
  induction l generalizing k with
  | nil => rfl
  | cons x xs ih => simp [List.enumFrom, hF (k, x), ih (k + 1)]

/-- `CreateAdditionalZeros` preserves the shape. -/
theorem createAdditionalZeros_shape (M : Matrix) (covR covC : List Bool) :
    SameShape (createAdditionalZeros M covR covC) M := by
  unfold createAdditionalZeros
  refine ⟨rfl, rfl, ?_⟩
  show ((((M.head.enumFrom 0).map _).enumFrom 0).map _).map _ = _
  refine Eq.trans (map_rows_enumFrom_map _ ?_ 0 _) (map_rows_enumFrom_map _ ?_ 0 _)
  · intro rp
    apply map_column_enumFrom_map
    intro cp
    dsimp only
    split <;> rfl
  · intro rp
    apply map_column_enumFrom_map
    intro cp
    dsimp only
    split <;> rfl

/-- A successful exit of the fixpoint loop only happens at an optimal
state. -/
theorem hungarianLoop_some_optimal :
    ∀ (fuel : Nat) (st st' : HState), hungarianLoop fuel st = some st' →
      isOptimalSolution st'.work = true := by
  intro fuel
  induction fuel with
  | zero => intro st st' h; cases h
  | succ fuel ih =>
    intro st st' h
    by_cases hopt : isOptimalSolution st.work
    · have : some st = some st' := by
        rw [← h]
        show _ = (if isOptimalSolution st.work then some st else _)
        rw [if_pos hopt]
      cases this
      exact hopt
    · apply ih (hungarianStep st) st'
      rw [← h]
      show _ = (if isOptimalSolution st.work then some st else _)
      rw [if_neg hopt]

/-- The fixpoint loop only rewrites values: the shape of the working
matrix when the loop exits is the shape it entered with. -/
theorem hungarianLoop_shape :
    ∀ (fuel : Nat) (st st' : HState), hungarianLoop fuel st = some st' →
      SameShape st'.work st.work := by
  intro fuel
  induction fuel with
  | zero => intro st st' h; cases h
  | succ fuel ih =>
    intro st st' h
    by_cases hopt : isOptimalSolution st.work
    · have : some st = some st' := by
        rw [← h]
        show _ = (if isOptimalSolution st.work then some st else _)
        rw [if_pos hopt]
      cases this
      exact sameShape_refl _
    · have hrest : hungarianLoop fuel (hungarianStep st) = some st' := by
        rw [← h]
        show _ = (if isOptimalSolution st.work then some st else _)
        rw [if_neg hopt]
      exact sameShape_trans (ih (hungarianStep st) st' hrest)
        (createAdditionalZeros_shape st.work _ _)

/-- Well-formedness transports along shape equality. -/
theorem wellFormed_of_sameShape {A M : Matrix} (h : SameShape A M) (hWF : WellFormed M) :
    WellFormed A := by
  obtain ⟨hw, hh, hmap⟩ := h
  have hlen : A.head.length = M.head.length := by
    have := congrArg List.length hmap
    simpa using this
  refine ⟨hw ▸ hWF.1, hh ▸ hWF.2.1, ?_, ?_⟩
  · rw [hlen, hWF.2.2.1]
    unfold Matrix.H
    rw [hh]
  · intro row hrow
    obtain ⟨⟨t, ht⟩, hget⟩ := List.mem_iff_get.mp hrow
    have htM : t < M.head.length := hlen ▸ ht
    have hcols : row.map Cell.column = (M.head.get ⟨t, htM⟩).map Cell.column := by
      have h1 : (A.head.map (fun row => row.map Cell.column)).get
          ⟨t, by simpa using ht⟩ = row.map Cell.column := by
        rw [List.get_map, hget]
      have h2 : (M.head.map (fun row => row.map Cell.column)).get
          ⟨t, by simpa using htM⟩ = (M.head.get ⟨t, htM⟩).map Cell.column := by
        rw [List.get_map]
      rw [← h1, ← h2]
      exact List.get_of_eq hmap _
    have hM := hWF.2.2.2 (M.head.get ⟨t, htM⟩) (List.get_mem M.head t htM)
    have hrl : row.length = (M.head.get ⟨t, htM⟩).length := by
      have := congrArg List.length hcols
      simpa using this
    constructor
    · rw [hrl, hM.1]
      unfold Matrix.W
      rw [hw]
    · intro i hi
      have hiM : i < (M.head.get ⟨t, htM⟩).length := hrl ▸ hi
      have h1 : (row.map Cell.column).get ⟨i, by simpa using hi⟩ =
          (row.get ⟨i, hi⟩).column := by rw [List.get_map]
      have h2 : ((M.head.get ⟨t, htM⟩).map Cell.column).get ⟨i, by simpa using hiM⟩ =
          ((M.head.get ⟨t, htM⟩).get ⟨i, hiM⟩).column := by rw [List.get_map]
      have h3 := List.get_of_eq hcols (⟨i, by simpa using hi⟩ : Fin (row.map Cell.column).length)
      rw [h1] at h3
      rw [← h3] at h2
      rw [h2]
      exact hM.2 i hiM

/-- The covered-line count of `IsOptimalSolution`: how many of the first
`n` indices are marked. -/
def countCov (l : List Bool) (n : Nat) : Nat :=
  (List.range n).countP (fun i => l.getD i false)

/-- Marking a fresh in-range index raises the covered count by one. -/
theorem countCov_set {l : List Bool} {i n : Nat} (hin : i < n) (hil : i < l.length)
    (hfalse : l.getD i false = false) :
    countCov (l.set i true) n = countCov l n + 1 := by
  unfold countCov
  have hsplit : List.range n = List.range' 0 i ++ List.range' i (n - i) := by
    rw [List.range_eq_range']
    have happ := List.range'_append 0 i (n - i) 1
    simp only [Nat.one_mul, Nat.zero_add] at happ
    rw [happ, show n - i + i = n from by omega]
  have htail : List.range' i (n - i) = i :: List.range' (i + 1) (n - i - 1) := by
    have h2 := List.range'_succ i (n - i - 1) 1
    rw [show n - i - 1 + 1 = n - i from by omega] at h2
    simpa using h2
  rw [hsplit, htail, List.countP_append, List.countP_append, List.countP_cons,
    List.countP_cons]
  have hpre : (List.range' 0 i).countP (fun j => (l.set i true).getD j false) =
      (List.range' 0 i).countP (fun j => l.getD j false) := by
    apply List.countP_congr
    intro x hx
    obtain ⟨t, ht, hxt⟩ := List.mem_range'.mp hx
    have hxi : x ≠ i := by omega
    rw [getD_set_ne (fun hh => hxi hh.symm)]
  have hpost : (List.range' (i + 1) (n - i - 1)).countP
        (fun j => (l.set i true).getD j false) =
      (List.range' (i + 1) (n - i - 1)).countP (fun j => l.getD j false) := by
    apply List.countP_congr
    intro x hx
    obtain ⟨t, ht, hxt⟩ := List.mem_range'.mp hx
    have hxi : x ≠ i := by omega
    rw [getD_set_ne (fun hh => hxi hh.symm)]
  rw [hpre, hpost, getD_set_self hil, hfalse]
  simp
  omega

/-- Once its row is covered, the per-row scan of `IsOptimalSolution`
changes nothing. -/
theorem optCoverRow_covered (rowIdx : Nat) (cells : List Cell)
    (cv : List Bool × List Bool) (h : cv.1.getD rowIdx false = true) :
    optCoverRow rowIdx cells cv = cv := by
  unfold optCoverRow
  apply foldl_inv (fun x => x = cv) _ cells cv rfl
  intro b e _ hb
  subst hb
  have hnot : ¬(e.value = 0 ∧ b.1.getD rowIdx false = false ∧
      b.2.getD e.column.toNat false = false) := by
    intro hcond
    rw [h] at hcond
    exact absurd hcond.2.1 (by simp)
  rw [if_neg hnot]

/-- On a row whose columns are `k, k+1, ...` and whose values match the
matrix, the greedy cover scan of `IsOptimalSolution` marks exactly the
column `ExtractFinalSolution`'s scan would claim (or nothing, when that
scan finds nothing). -/
theorem optCoverRow_align (F : Matrix) (rowIdx : Nat) (covR : List Bool)
    (hrlt : rowIdx < covR.length) (hcovr : covR.getD rowIdx false = false) :
    ∀ (cells : List Cell) (k : Nat) (covC : List Bool),
      (∀ i (h : i < cells.length), (cells.get ⟨i, h⟩).column = ((k + i : Nat) : Int)) →
      (∀ i (h : i < cells.length), valueAt F rowIdx (k + i) = (cells.get ⟨i, h⟩).value) →
      optCoverRow rowIdx cells (covR, covC) =
        match findZeroCol F rowIdx covC (List.range' k cells.length) with
        | some c => (covR.set rowIdx true, covC.set c true)
        | none => (covR, covC) := by
  intro cells
  induction cells with
  | nil => intro k covC _ _; rfl
  | cons e rest ih =>
    intro k covC hcol hval
    have hcol0 : e.column = (k : Int) := by
      have := hcol 0 (by simp)
      simpa using this
    have hval0 : valueAt F rowIdx k = e.value := by
      have := hval 0 (by simp)
      simpa using this
    have hrange : List.range' k (e :: rest).length =
        k :: List.range' (k + 1) rest.length := by
      rw [List.length_cons, List.range'_succ]
    rw [hrange]
    by_cases hc : e.value = 0 ∧ covC.getD k false = false
    · have hstep : optCoverRow rowIdx (e :: rest) (covR, covC) =
          optCoverRow rowIdx rest (covR.set rowIdx true, covC.set (e.column.toNat) true) := by
        unfold optCoverRow
        rw [List.foldl_cons]
        rw [if_pos ⟨hc.1, hcovr, by rw [hcol0]; simpa using hc.2⟩]
      rw [hstep, hcol0]
      simp only [Int.toNat_ofNat]
      rw [optCoverRow_covered rowIdx rest _ (getD_set_self hrlt)]
      have hfind : findZeroCol F rowIdx covC (k :: List.range' (k + 1) rest.length) =
          some k := by
        show (if valueAt F rowIdx k = 0 ∧ covC.getD k false = false then some k
          else findZeroCol F rowIdx covC (List.range' (k + 1) rest.length)) = some k
        rw [if_pos ⟨hval0 ▸ hc.1, hc.2⟩]
      rw [hfind]
    · have hstep : optCoverRow rowIdx (e :: rest) (covR, covC) =
          optCoverRow rowIdx rest (covR, covC) := by
        unfold optCoverRow
        rw [List.foldl_cons]
        rw [if_neg (by
          intro hcond
          apply hc
          refine ⟨hcond.1, ?_⟩
          have := hcond.2.2
          rw [hcol0] at this
          simpa using this)]
      have hfind : findZeroCol F rowIdx covC (k :: List.range' (k + 1) rest.length) =
          findZeroCol F rowIdx covC (List.range' (k + 1) rest.length) := by
        show (if valueAt F rowIdx k = 0 ∧ covC.getD k false = false then some k
          else findZeroCol F rowIdx covC (List.range' (k + 1) rest.length)) = _
        rw [if_neg (by
          intro hcond
          exact hc ⟨hval0 ▸ hcond.1, hcond.2⟩)]
      rw [hstep, hfind]
      apply ih (k + 1) covC
      · intro i h
        have := hcol (i + 1) (by simpa using Nat.succ_lt_succ h)
        simpa [Nat.add_comm, Nat.add_assoc, Nat.add_left_comm] using this
      · intro i h
        have := hval (i + 1) (by simpa using Nat.succ_lt_succ h)
        rw [show k + 1 + i = k + (i + 1) from by omega]
        simpa using this

/-- The row-indexed fold `IsOptimalSolution` performs, started from an
arbitrary row index and cover state. -/
def optFold (rows : List (List Cell)) (j : Nat) (cv : List Bool × List Bool) :
    (List Bool × List Bool) × Nat :=
  rows.foldl (fun (acc : (List Bool × List Bool) × Nat) cells =>
    (optCoverRow acc.2 cells acc.1, acc.2 + 1)) (cv, j)

/-- `optCovers` is the fold from row 0 with fresh cover arrays. -/
theorem optCovers_eq_optFold (M : Matrix) :
    optCovers M = (optFold M.head 0 (List.replicate M.H false, List.replicate M.W false)).1 :=
  rfl

/-- The row loop of `ExtractFinalSolution`, over an arbitrary list of
row indices. -/
def extFold (origM F : Matrix) (numCols : Nat) (rowsIdx : List Nat) (st : ExtractState) :
    ExtractState :=
  rowsIdx.foldl
    (fun (st : ExtractState) row =>
      match findZeroCol F row st.claimed (List.range numCols) with
      | some c =>
        ⟨st.sum + valueAt origM row c, st.chosenElements ++ [valueAt origM row c],
          st.pairs ++ [(row, c)], st.claimed.set c true⟩
      | none => st)
    st

/-- `ExtractFinalSolution` is the fold over all row indices from the
fresh state. -/
theorem extractFinalSolution_eq_extFold (origM F : Matrix) :
    extractFinalSolution origM F =
      ⟨SUCCESS,
        (extFold origM F origM.W (List.range origM.H)
          ⟨0, [], [], List.replicate origM.W false⟩).chosenElements,
        (extFold origM F origM.W (List.range origM.H)
          ⟨0, [], [], List.replicate origM.W false⟩).pairs,
        (extFold origM F origM.W (List.range origM.H)
          ⟨0, [], [], List.replicate origM.W false⟩).sum⟩ :=
  rfl

/-- On a well-formed final matrix, the cover scan of
`IsOptimalSolution` and the claim scan of `ExtractFinalSolution` walk
the rows in lockstep: the column covers coincide with the claims, and
both covered-line counts grow exactly with the number of assigned
pairs. -/
theorem covers_extract_align (F origM : Matrix)
    (hrows : ∀ row ∈ F.head, row.length = F.W ∧
      ∀ i (h : i < row.length), (row.get ⟨i, h⟩).column = (i : Int)) :
    ∀ (rows : List (List Cell)) (j : Nat) (covR covC : List Bool) (st : ExtractState),
      F.head.drop j = rows →
      covR.length = F.head.length →
      covC = st.claimed →
      covC.length = F.W →
      (∀ i, j ≤ i → covR.getD i false = false) →
      ((optFold rows j ((covR, covC))).1.2 =
          (extFold origM F F.W (List.range' j rows.length) st).claimed ∧
        countCov (optFold rows j ((covR, covC))).1.1 F.head.length + st.pairs.length =
          countCov covR F.head.length +
            (extFold origM F F.W (List.range' j rows.length) st).pairs.length ∧
        countCov (optFold rows j ((covR, covC))).1.2 F.W + st.pairs.length =
          countCov covC F.W +
            (extFold origM F F.W (List.range' j rows.length) st).pairs.length) := by
  intro rows
  induction rows with
  | nil =>
    intro j covR covC st _ _ hcc _ _
    exact ⟨hcc, rfl, rfl⟩
  | cons cells rest ih =>
    intro j covR covC st hdrop hlenR hcc hlenC habove
    have hlenlt : j < F.head.length := by
      have := congrArg List.length hdrop
      simp only [List.length_drop, List.length_cons] at this
      omega
    have hsplit := (List.drop_eq_get_cons hlenlt).symm.trans hdrop
    injection hsplit with hcells hrest
    have hmem : cells ∈ F.head := hcells ▸ List.get_mem F.head j hlenlt
    obtain ⟨hrowlen, hrowcol⟩ := hrows cells hmem
    have hcol0 : ∀ i (h : i < cells.length),
        (cells.get ⟨i, h⟩).column = ((0 + i : Nat) : Int) := by
      intro i h
      rw [hrowcol i h]
      congr 1
      omega
    have hval0 : ∀ i (h : i < cells.length), valueAt F j (0 + i) = (cells.get ⟨i, h⟩).value := by
      intro i h
      rw [Nat.zero_add]
      unfold valueAt cellAt
      rw [List.get?_eq_get hlenlt, hcells]
      simp only [Option.some_bind]
      rw [show cells.get? i = some (cells.get ⟨i, h⟩) from List.get?_eq_get h]
      rfl
    have hrowstep := optCoverRow_align F j covR (hlenR ▸ hlenlt) (habove j (le_refl j))
      cells 0 covC hcol0 hval0
    rw [show List.range' 0 cells.length = List.range F.W from by
      rw [hrowlen, List.range_eq_range']] at hrowstep
    have hoptstep : optFold (cells :: rest) j (covR, covC) =
        optFold rest (j + 1) (optCoverRow j cells (covR, covC)) := rfl
    have hextstep : extFold origM F F.W (List.range' j (cells :: rest).length) st =
        extFold origM F F.W (List.range' (j + 1) rest.length)
          (match findZeroCol F j st.claimed (List.range F.W) with
            | some c =>
              ⟨st.sum + valueAt origM j c, st.chosenElements ++ [valueAt origM j c],
                st.pairs ++ [(j, c)], st.claimed.set c true⟩
            | none => st) := by
      rw [show List.range' j (cells :: rest).length =
        j :: List.range' (j + 1) rest.length from by
          rw [List.length_cons, List.range'_succ]]
      rfl
    cases hfind : findZeroCol F j covC (List.range F.W) with
    | none =>
      rw [hfind] at hrowstep
      rw [hoptstep, hextstep, hrowstep]
      rw [hcc] at hfind
      rw [hfind]
      exact ih (j + 1) covR covC st (by rw [← hrest]) hlenR hcc hlenC
        (fun i hi => habove i (by omega))
    | some c =>
      obtain ⟨hcmem, _, hcfree⟩ := findZeroCol_spec F j covC _ c hfind
      have hcW : c < F.W := List.mem_range.mp hcmem
      rw [hfind] at hrowstep
      rw [hoptstep, hextstep, hrowstep]
      rw [hcc] at hfind
      rw [hfind]
      have hnext := ih (j + 1) (covR.set j true) (covC.set c true)
        ⟨st.sum + valueAt origM j c, st.chosenElements ++ [valueAt origM j c],
          st.pairs ++ [(j, c)], st.claimed.set c true⟩
        (by rw [← hrest])
        (by rw [List.length_set, hlenR])
        (by rw [hcc])
        (by rw [List.length_set, hlenC])
        (by
          intro i hi
          rw [getD_set_ne (by omega)]
          exact habove i (by omega))
      obtain ⟨hn1, hn2, hn3⟩ := hnext
      dsimp only at hn2 hn3
      simp only [List.length_append, List.length_cons, List.length_nil] at hn2 hn3
      have hset1 := countCov_set hlenlt (by rw [hlenR]; exact hlenlt)
        (habove j (le_refl j))
      have hset2 := countCov_set hcW (by rw [hlenC]; exact hcW) hcfree
      dsimp only
      exact ⟨hn1, by omega, by omega⟩

/-- A fresh cover array reads `false` everywhere. -/
theorem getD_replicate_false (n i : Nat) : (List.replicate n false).getD i false = false := by
  rw [List.getD_eq_getElem?_getD, List.getElem?_replicate]
  split <;> rfl

/-- A fresh cover array covers nothing. -/
theorem countCov_replicate_false (m n : Nat) : countCov (List.replicate m false) n = 0 := by
  unfold countCov
  apply List.countP_eq_zero.mpr
  intro a _
  rw [getD_replicate_false]
  simp

/-- `IsOptimalSolution` holds exactly when one of the covered-line
counts reaches the corresponding dimension field. -/
theorem isOptimal_iff (F : Matrix) :
    isOptimalSolution F = true ↔
      ((countCov (optCovers F).1 F.H : Int) = F.height ∨
        (countCov (optCovers F).2 F.W : Int) = F.width) := by
  constructor
  · intro h
    exact of_decide_eq_true h
  · intro h
    exact decide_eq_true h

/-- Claim C8 counterexample: `ExtractFinalSolution` has no failure path.
Called directly on a covering state where only one of min(H,W) = 2 zeros
can be matched (the final matrix [[0,1],[0,1]] has no zero for row 1
outside the claimed column), it returns `SUCCESS` with the partial
selection [(0,0)] and the partial sum 1, instead of failing with
ExtractionFailure (no such error code exists in the program). -/
theorem extract_partial_with_success :
    extractFinalSolution (mkMatrix [[1, 2], [3, 4]]) (mkMatrix [[0, 1], [0, 1]]) =
      ⟨SUCCESS, [1], [(0, 0)], 1⟩ ∧
      (1 : Nat) < min (mkMatrix [[1, 2], [3, 4]]).H (mkMatrix [[1, 2], [3, 4]]).W := by
  refine ⟨by rfl, by decide⟩

/-- Claim C8 (amended): `ExtractFinalSolution` itself never fails — it
returns `SUCCESS` with whatever (possibly partial) matching its scan
finds.  However, `HungarianAlgorithm` only reaches the extraction step
after `IsOptimalSolution` holds, and then the extraction scan matches
exactly `min(H, W)` zeros, so the solver never returns a partial
selection: the deficient case is unreachable through the solver. -/
theorem hungarian_extraction_matches_min :
    ∀ (M : Matrix) (hres : HungarianOutcome) (fuel : Nat),
      WellFormed M →
      HungarianAlgorithm M fuel = some hres →
      hres.pairs.length = min M.H M.W := by
  intro M hres fuel hWF hh
  unfold HungarianAlgorithm at hh
  cases hloop : hungarianLoop fuel
      ⟨subtractColumnMinima (subtractRowMinima (makeNonneg (negateAll (copyMatrix M)))),
        List.replicate (copyMatrix M).H false, List.replicate (copyMatrix M).W false⟩ with
  | none => simp [hloop] at hh
  | some st =>
    simp only [hloop] at hh
    cases hh
    have hshape : SameShape st.work M := by
      have h1 := hungarianLoop_shape fuel _ st hloop
      have h2 : SameShape
          (subtractColumnMinima (subtractRowMinima (makeNonneg (negateAll (copyMatrix M))))) M := by
        rw [copyMatrix_eq_self]
        exact sameShape_trans (subtractColumnMinima_shape _)
          (sameShape_trans (subtractRowMinima_shape _)
            (sameShape_trans (makeNonneg_shape _) (negateAll_shape M)))
      exact sameShape_trans h1 h2
    have hWFF : WellFormed st.work := wellFormed_of_sameShape hshape hWF
    have hHeq : st.work.H = M.H := by
      unfold Matrix.H
      rw [hshape.2.1]
    have hWeq : st.work.W = M.W := by
      unfold Matrix.W
      rw [hshape.1]
    have hopt : isOptimalSolution st.work = true := hungarianLoop_some_optimal fuel _ st hloop
    have halign := covers_extract_align st.work M
      (fun row hrow => hWFF.2.2.2 row hrow) st.work.head 0
      (List.replicate st.work.H false) (List.replicate st.work.W false)
      ⟨0, [], [], List.replicate st.work.W false⟩
      rfl (by simp [hWFF.2.2.1]) rfl (by simp)
      (fun i _ => getD_replicate_false _ _)
    obtain ⟨_, hcountR, hcountC⟩ := halign
    show (extractFinalSolution M st.work).pairs.length = min M.H M.W
    -- identify the extraction fold of the solver with the aligned fold
    have hpairs : (extractFinalSolution M st.work).pairs =
        (extFold M st.work st.work.W (List.range' 0 st.work.head.length)
          ⟨0, [], [], List.replicate st.work.W false⟩).pairs := by
      rw [extractFinalSolution_eq_extFold]
      rw [← hWeq, ← hHeq]
      rw [show List.range st.work.H = List.range' 0 st.work.head.length from by
        rw [List.range_eq_range', hWFF.2.2.1]]
    dsimp only at hcountR hcountC
    rw [countCov_replicate_false] at hcountR
    rw [countCov_replicate_false] at hcountC
    simp only [List.length_nil, Nat.add_zero, Nat.zero_add] at hcountR hcountC
    have hle : (extractFinalSolution M st.work).pairs.length ≤ min M.H M.W :=
      (extractFinalSolution_spec M st.work).2.2.2.1
    rw [isOptimal_iff, optCovers_eq_optFold] at hopt
    have hWH : st.work.head.length = st.work.H := hWFF.2.2.1
    have hbridgeR : countCov (optFold st.work.head 0
          (List.replicate st.work.H false, List.replicate st.work.W false)).1.1
          st.work.head.length =
        countCov (optFold st.work.head 0
          (List.replicate st.work.H false, List.replicate st.work.W false)).1.1
          st.work.H := by
      rw [hWH]
    have hheight : (M.height : Int) = (M.H : Int) := by
      unfold Matrix.H
      have := hWF.2.1
      omega
    have hwidth : (M.width : Int) = (M.W : Int) := by
      unfold Matrix.W
      have := hWF.1
      omega
    rw [hpairs] at hle ⊢
    rcases hopt with h | h
    · rw [← hbridgeR, hcountR] at h
      rw [hshape.2.1, hheight] at h
      omega
    · rw [hcountC] at h
      rw [hshape.1, hwidth] at h
      omega

/-- Witness for claim C8 (amended) at the matrix [[1,2],[3,4]] with fuel
1: the returned assignment has exactly min(2,2) = 2 cells. -/
theorem hungarian_extraction_matches_min_witness :
    (⟨mkMatrix [[1, 2], [3, 4]], 0, [1, 4], [(0, 0), (1, 1)], 5⟩ :
        HungarianOutcome).pairs.length =
      min (mkMatrix [[1, 2], [3, 4]]).H (mkMatrix [[1, 2], [3, 4]]).W :=
  hungarian_extraction_matches_min (mkMatrix [[1, 2], [3, 4]])
    ⟨mkMatrix [[1, 2], [3, 4]], 0, [1, 4], [(0, 0), (1, 1)], 5⟩ 1
    (by decide) (by rfl)

end MaxAssign
